import Mathlib

/-!
# Live-range algebra of `regalloc/liverange.rs`

A shallow embedding of the `LiveRange` / `Interval` data structure from
`src/lib/cretonne/src/regalloc/liverange.rs`, together with proofs about the
central `extend_in_ebb` operation and the interference-query surface.

Entity references (`Inst`, `Ebb`, `Value`) are opaque handles; we model them as
natural numbers.  A `ProgramOrder` is an external collaborator providing a
three-way comparison of program points and the `is_ebb_gap` fall-through
adjacency predicate; we model the comparison by an index into the linear
function layout, which yields the required total (pre)order.  Rust's in-place
mutation becomes explicit state passing, and the `assert_ne!` panic inside
`extend_in_ebb` is modelled by an `Option` result (`none` = panic).
-/

set_option maxHeartbeats 1000000

namespace Cretonne

/-- Opaque instruction reference (`ir::Inst`). -/
abbrev Inst := Nat

/-- Opaque extended-basic-block reference (`ir::Ebb`). -/
abbrev Ebb := Nat

/-- `ExpandedProgramPoint`: a program point is either an instruction or an EBB
header.  (`ir::ProgramPoint` is the packed form of the same tagged union; we
use a single type for both.) -/
inductive ProgramPoint where
  | inst (i : Inst)
  | ebb (e : Ebb)
deriving DecidableEq, Repr

/-- The `ProgramOrder` collaborator.  `idx` assigns each program point its
position in the linear layout of the function; the three-way comparison
`cmp` is derived from it.  `gap` is the raw `is_ebb_gap` adjacency relation
(is this instruction immediately followed, in layout, by that EBB header). -/
structure ProgramOrder where
  idx : ProgramPoint → Nat
  gap : Inst → Ebb → Bool

/-- `ProgramOrder::cmp`: three-way comparison of two program points. -/
def ProgramOrder.cmp (po : ProgramOrder) (a b : ProgramPoint) : Ordering :=
  compare (po.idx a) (po.idx b)

/-- `ProgramOrder::is_ebb_gap(inst, ebb)`: is `inst` the terminator whose only
fall-through successor is `ebb`? -/
def ProgramOrder.is_ebb_gap (po : ProgramOrder) (i : Inst) (e : Ebb) : Bool :=
  po.gap i e

/-- One contiguous live-in interval of a global live range
(`liverange::Interval`).  The source field `end` is a Lean keyword, so it is
rendered `iend` here. -/
structure Interval where
  begin : Ebb
  iend : Inst
deriving DecidableEq, Repr

instance : Inhabited Interval := ⟨⟨0, 0⟩⟩

/-- `Interval::extend_to`: widen the end point to `to`, but only if that makes
the interval longer. -/
def Interval.extend_to (iv : Interval) (toi : Inst) (po : ProgramOrder) : Interval :=
  if po.cmp (.inst toi) (.inst iv.iend) = .gt then { iv with iend := toi } else iv

/-- Global live range of a single SSA value (`liverange::LiveRange`).
The `affinity` field of the source is register-allocation metadata never read
by the live-range algebra and is omitted. -/
structure LiveRange where
  /-- The value described by this live range (opaque, never read here). -/
  value : Nat
  /-- The instruction or EBB header where the value is defined. -/
  def_begin : ProgramPoint
  /-- End point of the def interval; always in the same EBB as `def_begin`. -/
  def_end : ProgramPoint
  /-- Additional live-in intervals, sorted in program order. -/
  liveins : List Interval
deriving DecidableEq, Repr

namespace LiveRange

/-- `LiveRange::new`: a dead live range at the defining point `dp`. -/
def new (value : Nat) (dp : ProgramPoint) : LiveRange :=
  { value := value, def_begin := dp, def_end := dp, liveins := [] }

/-- Helper modelling `Vec::binary_search_by(|intv| order.cmp(intv.begin, ebb))`
on the `liveins` vector.  `binary_search_by` is specified only up to the
sortedness of its input, on which it returns `Ok n` for the (unique, under the
strict-sortedness invariant) index whose `begin` compares equal, or `Err n`
with `n` the insertion point.  We model that contract with an equivalent
left-to-right scan carrying the index accumulator `k`. -/
def bsearchAux (po : ProgramOrder) (ebb : Ebb) : List Interval → Nat → Except Nat Nat
  | [], k => .error k
  | iv :: rest, k =>
    match po.cmp (.ebb iv.begin) (.ebb ebb) with
    | .lt => bsearchAux po ebb rest (k + 1)
    | .eq => .ok k
    | .gt => .error k

/-- `LiveRange::find_ebb_interval`: find the live-in interval containing `ebb`,
if any.  `Ok n` means `liveins[n]` contains `ebb`; `Err n` is the index where
such an interval should be inserted.  The `none` arm of the inner match is
unreachable (`bsearchAux` never returns an error index whose predecessor is
out of bounds when it is positive). -/
def find_ebb_interval (lr : LiveRange) (ebb : Ebb) (po : ProgramOrder) : Except Nat Nat :=
  match bsearchAux po ebb lr.liveins 0 with
  | .ok n => .ok n
  | .error n =>
    -- The interval at `n - 1` may cover `ebb`.  (The source reads
    -- `liveins[n - 1]` only after checking `n > 0`; probing with `get?`
    -- first is equivalent, and the `none` arm is unreachable for `n > 0`.)
    match lr.liveins.get? (n - 1) with
    | some prev =>
      if n ≠ 0 ∧ po.cmp (.inst prev.iend) (.ebb ebb) = .gt then .ok (n - 1)
      else .error n
    | none => .error n

/-- `LiveRange::extend_in_ebb`: extend the local interval for `ebb` so it
reaches `to`, which must belong to `ebb`.  Returns `some (newly_livein, lr')`,
or `none` when the source hits `assert_ne!(to, def_begin)` (a value used at
its own defining instruction) and panics. -/
def extend_in_ebb (lr : LiveRange) (ebb : Ebb) (toi : Inst) (po : ProgramOrder) :
    Option (Bool × LiveRange) :=
  -- First check if we're extending the def interval.
  if po.cmp (.ebb ebb) lr.def_end ≠ .gt ∧ po.cmp (.inst toi) lr.def_begin ≠ .lt then
    if ProgramPoint.inst toi = lr.def_begin then
      none
    else if po.cmp (.inst toi) lr.def_end = .gt then
      some (false, { lr with def_end := .inst toi })
    else
      some (false, lr)
  else
    -- Now check if we're extending any of the existing live-in intervals.
    match lr.find_ebb_interval ebb po with
    | .ok n =>
      -- We have an interval that contains `ebb`, so we can simply extend it.
      let l1 := lr.liveins.set n ((lr.liveins.getD n default).extend_to toi po)
      -- If `to` is the terminator and the value lives in the successor EBB,
      -- coalesce the two intervals.
      let l2 :=
        match l1.get? (n + 1) with
        | some next =>
          if po.is_ebb_gap toi next.begin then
            (l1.set n ((l1.getD n default).extend_to next.iend po)).eraseIdx (n + 1)
          else l1
        | none => l1
      some (false, { lr with liveins := l2 })
    | .error n =>
      -- Insert a new live-in interval at `n`, or coalesce to predecessor or
      -- successor if possible.
      let prev := if n = 0 then none else lr.liveins.get? (n - 1)
      let next := lr.liveins.get? n
      let coalesce_prev := prev.elim false fun p => po.is_ebb_gap p.iend ebb
      let coalesce_next := next.elim false fun q => po.is_ebb_gap toi q.begin
      let newliveins :=
        match coalesce_prev, coalesce_next with
        -- Extend predecessor interval to cover new and successor intervals.
        | true, true =>
          let e := (lr.liveins.getD n default).iend
          (lr.liveins.set (n - 1) ((lr.liveins.getD (n - 1) default).extend_to e po)).eraseIdx n
        -- Extend predecessor interval to cover new interval.
        | true, false =>
          lr.liveins.set (n - 1) ((lr.liveins.getD (n - 1) default).extend_to toi po)
        -- Extend successor interval to cover new interval.
        | false, true =>
          lr.liveins.set n { lr.liveins.getD n default with begin := ebb }
        -- Cannot coalesce; insert new interval.
        | false, false =>
          lr.liveins.insertIdx n { begin := ebb, iend := toi }
      some (true, { lr with liveins := newliveins })

/-- `LiveRange::is_dead`. -/
def is_dead (lr : LiveRange) : Bool :=
  lr.def_begin == lr.def_end

/-- `LiveRange::is_local`. -/
def is_local (lr : LiveRange) : Bool :=
  lr.liveins.isEmpty

/-- `LiveRange::def`: the program point where this live range is defined
(`def` is a Lean keyword, hence `def_pt`). -/
def def_pt (lr : LiveRange) : ProgramPoint :=
  lr.def_begin

/-- `LiveRange::move_def_locally`: relocate `def_begin`.  The caller is
responsible for staying within the same EBB and not exceeding
`def_local_end()`; the structure performs no validation. -/
def move_def_locally (lr : LiveRange) (dp : ProgramPoint) : LiveRange :=
  { lr with def_begin := dp }

/-- `LiveRange::def_local_end`. -/
def def_local_end (lr : LiveRange) : ProgramPoint :=
  lr.def_end

/-- `LiveRange::livein_local_end`: the end point of the live-in interval
covering `ebb`, if the value is live-in to `ebb`. -/
def livein_local_end (lr : LiveRange) (ebb : Ebb) (po : ProgramOrder) : Option Inst :=
  match lr.find_ebb_interval ebb po with
  | .ok n => some (lr.liveins.getD n default).iend
  | .error _ => none

/-- `LiveRange::overlaps_def`: does this live range overlap a definition at
`dp` in `ebb`? -/
def overlaps_def (lr : LiveRange) (dp : ProgramPoint) (ebb : Ebb) (po : ProgramOrder) : Bool :=
  -- Check for an overlap with the local range.
  if po.cmp dp lr.def_begin ≠ .lt ∧ po.cmp dp lr.def_end = .lt then
    true
  else
    -- Check for an overlap with a live-in range.
    match lr.livein_local_end ebb po with
    | some i => decide (po.cmp dp (.inst i) = .lt)
    | none => false

/-- `LiveRange::reaches_use`: does this live range reach a use at `user` in
`ebb`? -/
def reaches_use (lr : LiveRange) (user : Inst) (ebb : Ebb) (po : ProgramOrder) : Bool :=
  -- Check for an overlap with the local range.
  if po.cmp (.inst user) lr.def_begin = .gt ∧ po.cmp (.inst user) lr.def_end ≠ .gt then
    true
  else
    -- Check for an overlap with a live-in range.
    match lr.livein_local_end ebb po with
    | some i => decide (po.cmp (.inst user) (.inst i) ≠ .gt)
    | none => false

/-- `LiveRange::killed_at`: is this live range killed at `user` in `ebb`? -/
def killed_at (lr : LiveRange) (user : Inst) (ebb : Ebb) (po : ProgramOrder) : Bool :=
  lr.def_local_end == ProgramPoint.inst user || lr.livein_local_end ebb po == some user

end LiveRange

/-! ## Semantic layer: layout membership, coverage, and validity -/

/-- Instruction `i` belongs to EBB `e`: it lies after `e`'s header and before
every later EBB header in the layout. -/
def InEbb (po : ProgramOrder) (i : Inst) (e : Ebb) : Prop :=
  po.idx (.ebb e) < po.idx (.inst i) ∧
    ∀ e', po.idx (.ebb e) < po.idx (.ebb e') → po.idx (.inst i) < po.idx (.ebb e')

/-- A program point belongs to EBB `e` (a header belongs to its own block). -/
def PPInEbb (po : ProgramOrder) (p : ProgramPoint) (e : Ebb) : Prop :=
  match p with
  | .inst i => InEbb po i e
  | .ebb e' => e' = e

/-- Live-in interval `iv` covers block `e`: `iv.begin ≤ e` and `e < iv.end`
in the program order.  This is exactly the coverage notion decided by
`find_ebb_interval` on a valid state. -/
def coversEbb (po : ProgramOrder) (iv : Interval) (e : Ebb) : Prop :=
  po.idx (.ebb iv.begin) ≤ po.idx (.ebb e) ∧ po.idx (.ebb e) < po.idx (.inst iv.iend)

/-- The set of program points covered by a live range: the def interval
`[def_begin, def_end]` together with every live-in interval `[begin, end]`. -/
def coversPt (po : ProgramOrder) (lr : LiveRange) (p : ProgramPoint) : Prop :=
  (po.idx lr.def_begin ≤ po.idx p ∧ po.idx p ≤ po.idx lr.def_end) ∨
    ∃ iv ∈ lr.liveins, po.idx (.ebb iv.begin) ≤ po.idx p ∧ po.idx p ≤ po.idx (.inst iv.iend)

/-- Consistency of a `ProgramOrder`, as assumed by `LiveRange`:
distinct program points occupy distinct layout positions, and `is_ebb_gap`
only holds of an instruction and the block header that immediately follows it
(no program point lies strictly between the two). -/
structure POValid (po : ProgramOrder) : Prop where
  inj : Function.Injective po.idx
  gap_lt : ∀ i e, po.is_ebb_gap i e = true → po.idx (.inst i) < po.idx (.ebb e)
  gap_tight : ∀ i e p, po.is_ebb_gap i e = true →
    po.idx (.inst i) < po.idx p → po.idx (.ebb e) ≤ po.idx p

/-- The `LiveRange` data-model invariants (the source's documented invariants
together with the facts checked by the test harness's `validate`):
def interval within one block and not backwards; `liveins` strictly sorted,
disjoint, coalesced (no two kept intervals are fall-through adjacent), each
interval nonempty, and none of them overlapping the defining block. -/
structure Valid (po : ProgramOrder) (lr : LiveRange) : Prop where
  dblock : ∃ d, PPInEbb po lr.def_begin d ∧ PPInEbb po lr.def_end d
  dle : po.idx lr.def_begin ≤ po.idx lr.def_end
  wf : ∀ iv ∈ lr.liveins, po.idx (.ebb iv.begin) < po.idx (.inst iv.iend)
  sorted : lr.liveins.Pairwise fun a b => po.idx (.inst a.iend) < po.idx (.ebb b.begin)
  adjFree : lr.liveins.Pairwise fun a b => po.is_ebb_gap a.iend b.begin = false
  ndef : ∀ d, PPInEbb po lr.def_begin d → ∀ iv ∈ lr.liveins,
    po.idx (.inst iv.iend) < po.idx (.ebb d) ∨ po.idx lr.def_end < po.idx (.ebb iv.begin)

/-- The four-case result of extending into an uncovered block at an insertion
point splitting `liveins` into `pre ++ post`, as dictated by fall-through
adjacency: merge into the predecessor (`pre`'s last interval) when its end is
adjacent to `ebb`; merge into the successor (`post`'s head) when `toi` is
adjacent to its begin; splice through both when both are adjacent; otherwise
insert a fresh singleton interval. -/
def insertionResult (po : ProgramOrder) (ebb : Ebb) (toi : Inst)
    (pre post : List Interval) : List Interval :=
  match pre.getLast?, post.head? with
  | some p, some q =>
    if po.is_ebb_gap p.iend ebb then
      if po.is_ebb_gap toi q.begin then
        pre.dropLast ++ Interval.mk p.begin q.iend :: post.tail
      else
        pre.dropLast ++ Interval.mk p.begin toi :: post
    else if po.is_ebb_gap toi q.begin then
      pre ++ Interval.mk ebb q.iend :: post.tail
    else
      pre ++ Interval.mk ebb toi :: post
  | some p, none =>
    if po.is_ebb_gap p.iend ebb then
      pre.dropLast ++ [Interval.mk p.begin toi]
    else
      pre ++ [Interval.mk ebb toi]
  | none, some q =>
    if po.is_ebb_gap toi q.begin then
      Interval.mk ebb q.iend :: post.tail
    else
      Interval.mk ebb toi :: post
  | none, none => [Interval.mk ebb toi]

/-! ## Concrete program orders and live ranges for instantiation -/

/-- A concrete consistent program order: block `k`'s header sits at layout
position `2k` and its single instruction `k` at `2k + 1`, so every block falls
through into the next one (`is_ebb_gap k (k+1)` holds). -/
def poW : ProgramOrder where
  idx := fun p =>
    match p with
    | .inst i => 2 * i + 1
    | .ebb e => 2 * e
  gap := fun i e => decide (e = i + 1)

/-- The same layout with no fall-through adjacency at all (every block ends in
a branch). -/
def poI : ProgramOrder where
  idx := fun p =>
    match p with
    | .inst i => 2 * i + 1
    | .ebb e => 2 * e
  gap := fun _ _ => false

/-- A dead live range defined at instruction 0 (block 0). -/
def lrW : LiveRange := LiveRange.new 0 (.inst 0)

/-- A live range defined at instruction 0 with one live-in interval covering
block 2. -/
def lrW2 : LiveRange :=
  { value := 0, def_begin := .inst 0, def_end := .inst 0,
    liveins := [Interval.mk 2 2] }

/-- A block-argument live range over block 0 with one live-in interval in
block 2 ending exactly at instruction 2. -/
def lrC5 : LiveRange :=
  { value := 0, def_begin := .ebb 0, def_end := .inst 0,
    liveins := [Interval.mk 2 2] }

/-- A block-argument live range whose def interval spans block 0's header to
instruction 0. -/
def lrC7 : LiveRange :=
  { value := 0, def_begin := .ebb 0, def_end := .inst 0, liveins := [] }

/-- A dead live range at instruction 5 (block 5). -/
def lrC10 : LiveRange := LiveRange.new 0 (.inst 5)

/-! ## Basic facts about the order -/

theorem cmp_eq_lt {po : ProgramOrder} {a b : ProgramPoint} :
    po.cmp a b = .lt ↔ po.idx a < po.idx b := by
  simp [ProgramOrder.cmp, Nat.compare_eq_lt]

theorem cmp_eq_gt {po : ProgramOrder} {a b : ProgramPoint} :
    po.cmp a b = .gt ↔ po.idx b < po.idx a := by
  simp [ProgramOrder.cmp, Nat.compare_eq_gt]

theorem cmp_eq_eq {po : ProgramOrder} {a b : ProgramPoint} :
    po.cmp a b = .eq ↔ po.idx a = po.idx b := by
  simp [ProgramOrder.cmp, Nat.compare_eq_eq]

theorem cmp_ne_gt {po : ProgramOrder} {a b : ProgramPoint} :
    po.cmp a b ≠ .gt ↔ po.idx a ≤ po.idx b := by
  simp [ProgramOrder.cmp, Nat.compare_ne_gt]

theorem cmp_ne_lt {po : ProgramOrder} {a b : ProgramPoint} :
    po.cmp a b ≠ .lt ↔ po.idx b ≤ po.idx a := by
  simp [ProgramOrder.cmp, Nat.compare_ne_lt]

/-- A block containing a given instruction is unique. -/
theorem InEbb.unique {po : ProgramOrder} (hpo : POValid po) {i : Inst} {e₁ e₂ : Ebb}
    (h₁ : InEbb po i e₁) (h₂ : InEbb po i e₂) : e₁ = e₂ := by
  have hl₁ := h₁.1
  have hl₂ := h₂.1
  have : po.idx (.ebb e₁) = po.idx (.ebb e₂) := by
    rcases Nat.lt_trichotomy (po.idx (.ebb e₁)) (po.idx (.ebb e₂)) with h | h | h
    · have := h₁.2 e₂ h; omega
    · exact h
    · have := h₂.2 e₁ h; omega
  have := hpo.inj this
  exact ProgramPoint.ebb.inj this

/-- A block containing a given program point is unique. -/
theorem PPInEbb.uniq {po : ProgramOrder} (hpo : POValid po) {p : ProgramPoint} {e₁ e₂ : Ebb}
    (h₁ : PPInEbb po p e₁) (h₂ : PPInEbb po p e₂) : e₁ = e₂ := by
  cases p with
  | inst i => exact InEbb.unique hpo h₁ h₂
  | ebb e => exact h₁.symm.trans h₂

/-- A point in block `d` sits at or after `d`'s header. -/
theorem PPInEbb.header_le {po : ProgramOrder} {p : ProgramPoint} {d : Ebb}
    (h : PPInEbb po p d) : po.idx (.ebb d) ≤ po.idx p := by
  cases p with
  | inst i => exact Nat.le_of_lt h.1
  | ebb e => cases h; exact Nat.le_refl _

/-- A point in block `d` lies before every later block header. -/
theorem PPInEbb.lt_later_header {po : ProgramOrder} {p : ProgramPoint} {d e : Ebb}
    (h : PPInEbb po p d) (hlt : po.idx (.ebb d) < po.idx (.ebb e)) :
    po.idx p < po.idx (.ebb e) := by
  cases p with
  | inst i => exact h.2 e hlt
  | ebb e' => cases h; exact hlt

/-! ## List surgery helpers -/

theorem list_set_at_len {α : Type} (pre : List α) (x y : α) (post : List α) :
    (pre ++ x :: post).set pre.length y = pre ++ y :: post := by
  induction pre with
  | nil => rfl
  | cons a l ih => simp [List.set, ih]

theorem list_get?_at_len {α : Type} (pre : List α) (x : α) (post : List α) :
    (pre ++ x :: post).get? pre.length = some x := by
  induction pre with
  | nil => rfl
  | cons a l ih => simpa using ih

theorem list_getD_at_len {α : Type} [Inhabited α] (pre : List α) (x : α) (post : List α) :
    (pre ++ x :: post).getD pre.length default = x := by
  induction pre with
  | nil => rfl
  | cons a l ih => simpa using ih

theorem list_get?_at_len_succ {α : Type} (pre : List α) (x : α) (post : List α) :
    (pre ++ x :: post).get? (pre.length + 1) = post.head? := by
  induction pre with
  | nil => cases post <;> rfl
  | cons a l ih => simpa using ih

theorem list_eraseIdx_at_len {α : Type} (pre : List α) (x : α) (post : List α) :
    (pre ++ x :: post).eraseIdx pre.length = pre ++ post := by
  induction pre with
  | nil => rfl
  | cons a l ih => simp [List.eraseIdx, ih]

theorem list_eraseIdx_at_len_succ {α : Type} (pre : List α) (x y : α) (post : List α) :
    (pre ++ x :: y :: post).eraseIdx (pre.length + 1) = pre ++ x :: post := by
  induction pre with
  | nil => rfl
  | cons a l ih => simp [List.eraseIdx, ih]

theorem list_insertIdx_at_len {α : Type} (pre : List α) (y : α) (post : List α) :
    (pre ++ post).insertIdx pre.length y = pre ++ y :: post := by
  induction pre with
  | nil => rfl
  | cons a l ih =>
    show List.insertIdx (l.length + 1) y (a :: (l ++ post)) = a :: (l ++ y :: post)
    rw [List.insertIdx_succ_cons, ih]

theorem list_get?_last {α : Type} (pre : List α) (x : α) (rest : List α) :
    (pre ++ x :: rest).get? (pre.length + 1 - 1) = some x := by
  simpa using list_get?_at_len pre x rest

/-! ## Correctness of the interval search -/

theorem bsearchAux_ok {po : ProgramOrder} {ebb : Ebb} :
    ∀ (l : List Interval) (k n : Nat), LiveRange.bsearchAux po ebb l k = .ok n →
      ∃ pre iv post, l = pre ++ iv :: post ∧ k + pre.length = n ∧
        po.idx (.ebb iv.begin) = po.idx (.ebb ebb) ∧
        ∀ a ∈ pre, po.idx (.ebb a.begin) < po.idx (.ebb ebb) := by
  intro l
  induction l with
  | nil => intro k n h; simp [LiveRange.bsearchAux] at h
  | cons iv rest ih =>
    intro k n h
    unfold LiveRange.bsearchAux at h
    rcases hc : po.cmp (.ebb iv.begin) (.ebb ebb) with _ | _ | _ <;> rw [hc] at h
    · obtain ⟨pre, iv', post, hdc, hk, heq, hpre⟩ := ih (k + 1) n h
      exact ⟨iv :: pre, iv', post, by simp [hdc], by simp; omega, heq,
        by
          intro a ha
          rcases List.mem_cons.1 ha with rfl | ha
          · exact cmp_eq_lt.1 hc
          · exact hpre a ha⟩
    · cases h
      exact ⟨[], iv, rest, rfl, by simp, cmp_eq_eq.1 hc, by simp⟩
    · cases h

theorem bsearchAux_error {po : ProgramOrder} {ebb : Ebb} :
    ∀ (l : List Interval) (k n : Nat), LiveRange.bsearchAux po ebb l k = .error n →
      ∃ pre post, l = pre ++ post ∧ k + pre.length = n ∧
        (∀ a ∈ pre, po.idx (.ebb a.begin) < po.idx (.ebb ebb)) ∧
        ∀ x ∈ post.head?, po.idx (.ebb ebb) < po.idx (.ebb x.begin) := by
  intro l
  induction l with
  | nil =>
    intro k n h
    simp [LiveRange.bsearchAux] at h
    exact ⟨[], [], rfl, by simpa using h, by simp, by simp⟩
  | cons iv rest ih =>
    intro k n h
    unfold LiveRange.bsearchAux at h
    rcases hc : po.cmp (.ebb iv.begin) (.ebb ebb) with _ | _ | _ <;> rw [hc] at h
    · obtain ⟨pre, post, hdc, hk, hpre, hpost⟩ := ih (k + 1) n h
      exact ⟨iv :: pre, post, by simp [hdc], by simp; omega,
        by
          intro a ha
          rcases List.mem_cons.1 ha with rfl | ha
          · exact cmp_eq_lt.1 hc
          · exact hpre a ha, hpost⟩
    · cases h
    · cases h
      exact ⟨[], iv :: rest, rfl, by simp, by simp, by simpa using cmp_eq_gt.1 hc⟩

/-- Scanning past a prefix of intervals that all begin strictly before `ebb`. -/
theorem bsearchAux_append {po : ProgramOrder} {ebb : Ebb} :
    ∀ (pre rest : List Interval),
      (∀ a ∈ pre, po.idx (.ebb a.begin) < po.idx (.ebb ebb)) → ∀ k,
      LiveRange.bsearchAux po ebb (pre ++ rest) k =
        LiveRange.bsearchAux po ebb rest (k + pre.length) := by
  intro pre
  induction pre with
  | nil => intro rest _ k; simp
  | cons a l ih =>
    intro rest hpre k
    have ha : po.cmp (.ebb a.begin) (.ebb ebb) = .lt := cmp_eq_lt.2 (hpre a (by simp))
    have hlen : k + (a :: l).length = k + 1 + l.length := by
      simp only [List.length_cons]; omega
    show LiveRange.bsearchAux po ebb (a :: (l ++ rest)) k = _
    unfold LiveRange.bsearchAux
    rw [ha, ih rest (fun x hx => hpre x (by simp [hx])) (k + 1), hlen]
    cases rest <;> rfl

/-- If a suffix is sorted and nonempty intervals and its head begins after
`ebb`, every member begins after `ebb`. -/
theorem all_gt_of_head {po : ProgramOrder} {ebb : Ebb} {post : List Interval}
    (hwf : ∀ a ∈ post, po.idx (.ebb a.begin) < po.idx (.inst a.iend))
    (hs : post.Pairwise fun a b => po.idx (.inst a.iend) < po.idx (.ebb b.begin))
    (hhead : ∀ x ∈ post.head?, po.idx (.ebb ebb) < po.idx (.ebb x.begin)) :
    ∀ a ∈ post, po.idx (.ebb ebb) < po.idx (.ebb a.begin) := by
  rcases post with _ | ⟨q, rest⟩
  · simp
  · intro a ha
    have hq : po.idx (.ebb ebb) < po.idx (.ebb q.begin) := hhead q rfl
    rcases List.mem_cons.1 ha with rfl | ha
    · exact hq
    · have h₁ := (List.pairwise_cons.1 hs).1 a ha
      have h₂ := hwf q (by simp)
      omega

theorem bsearchAux_nil {po : ProgramOrder} {ebb : Ebb} {k : Nat} :
    LiveRange.bsearchAux po ebb [] k = .error k := rfl

theorem bsearchAux_cons {po : ProgramOrder} {ebb : Ebb} {iv : Interval}
    {rest : List Interval} {k : Nat} :
    LiveRange.bsearchAux po ebb (iv :: rest) k =
      match po.cmp (.ebb iv.begin) (.ebb ebb) with
      | .lt => LiveRange.bsearchAux po ebb rest (k + 1)
      | .eq => .ok k
      | .gt => .error k := rfl

/-- Rewrite `find_ebb_interval` when the binary search succeeds. -/
theorem find_eq_of_ok {po : ProgramOrder} {lr : LiveRange} {ebb : Ebb} {n : Nat}
    (hb : LiveRange.bsearchAux po ebb lr.liveins 0 = .ok n) :
    lr.find_ebb_interval ebb po = .ok n := by
  unfold LiveRange.find_ebb_interval
  rw [hb]

/-- Rewrite `find_ebb_interval` when the binary search misses. -/
theorem find_eq_of_error {po : ProgramOrder} {lr : LiveRange} {ebb : Ebb} {n : Nat}
    (hb : LiveRange.bsearchAux po ebb lr.liveins 0 = .error n) :
    lr.find_ebb_interval ebb po =
      match lr.liveins.get? (n - 1) with
      | some prev =>
        if n ≠ 0 ∧ po.cmp (.inst prev.iend) (.ebb ebb) = .gt then .ok (n - 1)
        else .error n
      | none => .error n := by
  unfold LiveRange.find_ebb_interval
  rw [hb]

/-- `find_ebb_interval` success: the result indexes an interval covering
`ebb`. -/
theorem find_ok_decomp {po : ProgramOrder} {lr : LiveRange} {ebb : Ebb} {n : Nat}
    (hwf : ∀ iv ∈ lr.liveins, po.idx (.ebb iv.begin) < po.idx (.inst iv.iend))
    (h : lr.find_ebb_interval ebb po = .ok n) :
    ∃ pre iv post, lr.liveins = pre ++ iv :: post ∧ pre.length = n ∧ coversEbb po iv ebb := by
  cases hb : LiveRange.bsearchAux po ebb lr.liveins 0 with
  | ok m =>
    -- `binary_search_by` hit an interval whose `begin` equals `ebb`.
    rw [find_eq_of_ok hb] at h
    cases h
    obtain ⟨pre, iv, post, hdc, hk, heq, -⟩ := bsearchAux_ok _ 0 _ hb
    refine ⟨pre, iv, post, hdc, by omega, Nat.le_of_eq heq, ?_⟩
    have := hwf iv (hdc ▸ List.mem_append.2 (Or.inr (by simp)))
    omega
  | error m =>
    -- `binary_search_by` missed; the interval before the insertion point
    -- may still cover `ebb`.
    rw [find_eq_of_error hb] at h
    obtain ⟨pre, post, hdc, hk, hpre, -⟩ := bsearchAux_error _ 0 _ hb
    split at h
    · rename_i prev hprev
      split at h
      · rename_i hcond
        cases h
        obtain ⟨hm0, hgt⟩ := hcond
        rcases List.eq_nil_or_concat pre with rfl | ⟨pre', p, rfl⟩
        · simp at hk; omega
        · have hlen : pre'.length = m - 1 := by
            have := List.length_concat pre' p; omega
          have hdc' : lr.liveins = pre' ++ p :: post := by
            rw [hdc, List.concat_eq_append, List.append_assoc]; rfl
          have hget : lr.liveins.get? (m - 1) = some p := by
            rw [hdc', ← hlen]; exact list_get?_at_len pre' p post
          rw [hget] at hprev
          have hpp : p = prev := by injection hprev
          subst hpp
          refine ⟨pre', p, post, hdc', hlen, ?_, ?_⟩
          · exact Nat.le_of_lt (hpre p (by simp [List.concat_eq_append]))
          · have := cmp_eq_gt.1 hgt
            omega
      · exact absurd h (by simp)
    · exact absurd h (by simp)

/-- `find_ebb_interval` failure: the insertion index splits `liveins` into a
prefix entirely before `ebb` and a suffix entirely after it (so no interval
covers `ebb`). -/
theorem find_error_decomp {po : ProgramOrder} {lr : LiveRange} {ebb : Ebb} {n : Nat}
    (hpo : POValid po)
    (hwf : ∀ iv ∈ lr.liveins, po.idx (.ebb iv.begin) < po.idx (.inst iv.iend))
    (hsorted : lr.liveins.Pairwise fun a b => po.idx (.inst a.iend) < po.idx (.ebb b.begin))
    (h : lr.find_ebb_interval ebb po = .error n) :
    ∃ pre post, lr.liveins = pre ++ post ∧ pre.length = n ∧
      (∀ a ∈ pre, po.idx (.inst a.iend) < po.idx (.ebb ebb)) ∧
      ∀ a ∈ post, po.idx (.ebb ebb) < po.idx (.ebb a.begin) := by
  cases hb : LiveRange.bsearchAux po ebb lr.liveins 0 with
  | ok m =>
    rw [find_eq_of_ok hb] at h
    exact absurd h (by simp)
  | error m =>
    rw [find_eq_of_error hb] at h
    obtain ⟨pre, post, hdc, hk, hpre, hhead⟩ := bsearchAux_error _ 0 _ hb
    have hklen : pre.length = m := by omega
    have hpost : ∀ a ∈ post, po.idx (.ebb ebb) < po.idx (.ebb a.begin) := by
      refine all_gt_of_head (fun a ha => hwf a (hdc ▸ List.mem_append.2 (Or.inr ha)))
        ?_ hhead
      exact (List.pairwise_append.1 (hdc ▸ hsorted)).2.1
    have hz : m = 0 → (∃ pre post, lr.liveins = pre ++ post ∧ pre.length = m ∧
        (∀ a ∈ pre, po.idx (.inst a.iend) < po.idx (.ebb ebb)) ∧
        ∀ a ∈ post, po.idx (.ebb ebb) < po.idx (.ebb a.begin)) := by
      intro hm
      subst hm
      have : pre = [] := List.length_eq_zero.1 hklen
      subst this
      exact ⟨[], post, hdc, rfl, by simp, hpost⟩
    split at h
    · rename_i prev hprev
      split at h
      · exact absurd h (by simp)
      · rename_i hcond
        have hnm : m = n := by injection h
        subst hnm
        rcases Nat.eq_zero_or_pos m with rfl | hm
        · exact hz rfl
        · rcases List.eq_nil_or_concat pre with rfl | ⟨pre', p, rfl⟩
          · simp at hklen; omega
          · have hlen : pre'.length = m - 1 := by
              have := List.length_concat pre' p; omega
            have hdc' : lr.liveins = pre' ++ p :: post := by
              rw [hdc, List.concat_eq_append, List.append_assoc]; rfl
            have hget : lr.liveins.get? (m - 1) = some p := by
              rw [hdc', ← hlen]; exact list_get?_at_len pre' p post
            rw [hget] at hprev
            have hpp : p = prev := by injection hprev
            subst hpp
            have hngt : po.cmp (.inst p.iend) (.ebb ebb) ≠ .gt := fun hgt =>
              hcond ⟨by omega, hgt⟩
            have hple : po.idx (.inst p.iend) ≤ po.idx (.ebb ebb) := cmp_ne_gt.1 hngt
            have hpne : po.idx (.inst p.iend) ≠ po.idx (.ebb ebb) := fun hc => by
              cases hpo.inj hc
            refine ⟨pre'.concat p, post, hdc, hklen, ?_, hpost⟩
            intro a ha
            rcases (show a ∈ pre' ∨ a = p by simpa [List.concat_eq_append] using ha)
              with ha | rfl
            · -- earlier prefix elements end before `p` begins, before `ebb`
              have h₁ := (List.pairwise_append.1 (hdc' ▸ hsorted)).2.2 a ha p (by simp)
              have h₂ := hpre p (by simp [List.concat_eq_append])
              omega
            · omega
    · rename_i hprev
      have hnm : m = n := by injection h
      subst hnm
      rcases Nat.eq_zero_or_pos m with rfl | hm
      · exact hz rfl
      · exfalso
        have hlb : m ≤ lr.liveins.length := by
          rw [hdc, List.length_append]; omega
        have := List.get?_eq_none.1 hprev
        omega

/-- Converse search lemma: a decomposition exhibiting a covering interval
forces `find_ebb_interval` to return its index. -/
theorem find_eq_ok {po : ProgramOrder} {lr : LiveRange} {ebb : Ebb}
    {pre post : List Interval} {iv : Interval}
    (hwf : ∀ a ∈ lr.liveins, po.idx (.ebb a.begin) < po.idx (.inst a.iend))
    (hsorted : lr.liveins.Pairwise fun a b => po.idx (.inst a.iend) < po.idx (.ebb b.begin))
    (hdc : lr.liveins = pre ++ iv :: post) (hcov : coversEbb po iv ebb) :
    lr.find_ebb_interval ebb po = .ok pre.length := by
  have hprelt : ∀ a ∈ pre, po.idx (.ebb a.begin) < po.idx (.ebb ebb) := by
    intro a ha
    have h₁ := hwf a (hdc ▸ List.mem_append.2 (Or.inl ha))
    have h₂ := (List.pairwise_append.1 (hdc ▸ hsorted)).2.2 a ha iv (by simp)
    have h₃ := hcov.1
    omega
  have hb : LiveRange.bsearchAux po ebb lr.liveins 0 =
      LiveRange.bsearchAux po ebb (iv :: post) pre.length := by
    rw [hdc, bsearchAux_append pre _ hprelt 0, Nat.zero_add]
  rcases Nat.lt_or_ge (po.idx (.ebb iv.begin)) (po.idx (.ebb ebb)) with hlt | hge
  · -- `iv.begin < ebb`: the scan passes `iv` and errors at the suffix,
    -- and the `n - 1` fix-up finds `iv`.
    have hpost : LiveRange.bsearchAux po ebb post (pre.length + 1) =
        .error (pre.length + 1) := by
      rcases post with _ | ⟨q, rest⟩
      · rfl
      · have hq : po.idx (.ebb ebb) < po.idx (.ebb q.begin) := by
          have h₁ := (List.pairwise_append.1 (hdc ▸ hsorted)).2.1
          have h₂ := (List.pairwise_cons.1 h₁).1 q (by simp)
          have h₃ := hcov.2
          omega
        rw [bsearchAux_cons, cmp_eq_gt.2 hq]
    have hb2 : LiveRange.bsearchAux po ebb lr.liveins 0 = .error (pre.length + 1) := by
      rw [hb, bsearchAux_cons, cmp_eq_lt.2 hlt, hpost]
    rw [find_eq_of_error hb2]
    have hget : lr.liveins.get? (pre.length + 1 - 1) = some iv := by
      rw [Nat.add_sub_cancel, hdc]; exact list_get?_at_len pre iv post
    rw [hget]
    show (if pre.length + 1 ≠ 0 ∧ po.cmp (.inst iv.iend) (.ebb ebb) = .gt
      then Except.ok (pre.length + 1 - 1) else Except.error (pre.length + 1)) =
        Except.ok pre.length
    rw [if_pos ⟨by omega, cmp_eq_gt.2 hcov.2⟩, Nat.add_sub_cancel]
  · -- `iv.begin = ebb` (coverage gives `≤`): direct hit.
    have heq : po.idx (.ebb iv.begin) = po.idx (.ebb ebb) := Nat.le_antisymm hcov.1 hge
    have hb2 : LiveRange.bsearchAux po ebb lr.liveins 0 = .ok pre.length := by
      rw [hb, bsearchAux_cons, cmp_eq_eq.2 heq]
    exact find_eq_of_ok hb2

/-! ## The def-interval branch condition -/

/-- If the def-interval branch of `extend_in_ebb` fires (under the operation's
preconditions), then `ebb` is the defining block. -/
theorem defcond_defblock {po : ProgramOrder} {lr : LiveRange} {ebb : Ebb} {toi : Inst}
    (hpo : POValid po) (hv : Valid po lr) (hin : InEbb po toi ebb)
    (hc1 : po.cmp (.ebb ebb) lr.def_end ≠ .gt)
    (hc2 : po.cmp (.inst toi) lr.def_begin ≠ .lt) :
    PPInEbb po lr.def_begin ebb ∧ PPInEbb po lr.def_end ebb := by
  obtain ⟨D, hdb, hde⟩ := hv.dblock
  have hc1' := cmp_ne_gt.1 hc1
  have hc2' := cmp_ne_lt.1 hc2
  rcases Nat.lt_trichotomy (po.idx (.ebb ebb)) (po.idx (.ebb D)) with hlt | heq | hgt
  · -- `ebb` before the def block: `toi < def_begin`, contradicting the branch.
    have h₁ := hin.2 D hlt
    have h₂ := hdb.header_le
    omega
  · have : D = ebb := by
      have := hpo.inj heq.symm
      exact (ProgramPoint.ebb.inj this)
    subst this
    exact ⟨hdb, hde⟩
  · -- `ebb` after the def block: `ebb > def_end`, contradicting the branch.
    have h₁ := hde.lt_later_header hgt
    omega

/-- Conversely, if `ebb` is the defining block (and `toi ≥ def_begin`, the
operation's documented precondition), the def-interval branch fires. -/
theorem defblock_defcond {po : ProgramOrder} {lr : LiveRange} {ebb : Ebb} {toi : Inst}
    (hpo : POValid po) (hv : Valid po lr)
    (hprec : po.idx lr.def_begin ≤ po.idx (.inst toi))
    (hd : PPInEbb po lr.def_begin ebb) :
    po.cmp (.ebb ebb) lr.def_end ≠ .gt ∧ po.cmp (.inst toi) lr.def_begin ≠ .lt := by
  obtain ⟨D, hdb, hde⟩ := hv.dblock
  have hDe : D = ebb := PPInEbb.uniq hpo hdb hd
  subst hDe
  exact ⟨cmp_ne_gt.2 hde.header_le, cmp_ne_lt.2 hprec⟩

/-- A live-in interval covering `ebb` rules out `ebb` being the defining
block. -/
theorem covers_not_defblock {po : ProgramOrder} {lr : LiveRange} {ebb : Ebb} {iv : Interval}
    (hpo : POValid po) (hv : Valid po lr) (hiv : iv ∈ lr.liveins)
    (hcov : coversEbb po iv ebb) (hd : PPInEbb po lr.def_begin ebb) : False := by
  obtain ⟨D, hdb, hde⟩ := hv.dblock
  have hDe : D = ebb := PPInEbb.uniq hpo hdb hd
  subst hDe
  rcases hv.ndef D hd iv hiv with h | h
  · exact absurd hcov.2 (by omega)
  · have := hde.header_le
    have := hcov.1
    omega

/-! ## Shape of `extend_in_ebb` on each branch -/

theorem extend_to_begin {iv : Interval} {toi : Inst} {po : ProgramOrder} :
    (iv.extend_to toi po).begin = iv.begin := by
  unfold Interval.extend_to
  split <;> rfl

theorem list_get?_append_len {α : Type} (pre post : List α) :
    (pre ++ post).get? pre.length = post.head? := by
  induction pre with
  | nil => cases post <;> rfl
  | cons a l ih => simpa using ih

theorem list_getD_at_len_succ {α : Type} [Inhabited α] (pre : List α) (x y : α)
    (post : List α) :
    (pre ++ x :: y :: post).getD (pre.length + 1) default = y := by
  induction pre with
  | nil => rfl
  | cons a l ih => simpa using ih

/-- Def-interval branch, widening: `ebb`/`toi` lie in the def interval's block,
`toi` is not the def point itself, and `toi` is past `def_end`. -/
theorem extend_def_widen {po : ProgramOrder} {lr : LiveRange} {ebb : Ebb} {toi : Inst}
    (hc : po.cmp (.ebb ebb) lr.def_end ≠ .gt ∧ po.cmp (.inst toi) lr.def_begin ≠ .lt)
    (hne : ProgramPoint.inst toi ≠ lr.def_begin)
    (hgt : po.cmp (.inst toi) lr.def_end = .gt) :
    lr.extend_in_ebb ebb toi po = some (false, { lr with def_end := .inst toi }) := by
  unfold LiveRange.extend_in_ebb
  rw [if_pos hc, if_neg hne, if_pos hgt]

/-- Def-interval branch, no widening: `toi` is already covered. -/
theorem extend_def_nowiden {po : ProgramOrder} {lr : LiveRange} {ebb : Ebb} {toi : Inst}
    (hc : po.cmp (.ebb ebb) lr.def_end ≠ .gt ∧ po.cmp (.inst toi) lr.def_begin ≠ .lt)
    (hne : ProgramPoint.inst toi ≠ lr.def_begin)
    (hngt : po.cmp (.inst toi) lr.def_end ≠ .gt) :
    lr.extend_in_ebb ebb toi po = some (false, lr) := by
  unfold LiveRange.extend_in_ebb
  rw [if_pos hc, if_neg hne, if_neg hngt]

/-- Def-interval branch, assertion failure: `toi` is the def point itself. -/
theorem extend_def_panic {po : ProgramOrder} {lr : LiveRange} {ebb : Ebb} {toi : Inst}
    (hc : po.cmp (.ebb ebb) lr.def_end ≠ .gt ∧ po.cmp (.inst toi) lr.def_begin ≠ .lt)
    (heq : ProgramPoint.inst toi = lr.def_begin) :
    lr.extend_in_ebb ebb toi po = none := by
  unfold LiveRange.extend_in_ebb
  rw [if_pos hc, if_pos heq]

/-- Covered branch without coalescing: the covering interval is widened in
place and `false` is returned. -/
theorem extend_ok_nomerge {po : ProgramOrder} {lr : LiveRange} {ebb : Ebb} {toi : Inst}
    {n : Nat} {pre post : List Interval} {iv : Interval}
    (hnc : ¬(po.cmp (.ebb ebb) lr.def_end ≠ .gt ∧ po.cmp (.inst toi) lr.def_begin ≠ .lt))
    (hfind : lr.find_ebb_interval ebb po = .ok n)
    (hdc : lr.liveins = pre ++ iv :: post) (hlen : pre.length = n)
    (hng : ∀ q ∈ post.head?, po.is_ebb_gap toi q.begin = false) :
    lr.extend_in_ebb ebb toi po =
      some (false, { lr with liveins := pre ++ (iv.extend_to toi po) :: post }) := by
  unfold LiveRange.extend_in_ebb
  rw [if_neg hnc, hfind]
  dsimp only
  rw [← hlen, hdc, list_getD_at_len, list_set_at_len, list_get?_at_len_succ]
  cases post with
  | nil => rfl
  | cons q post' =>
    have := hng q rfl
    dsimp only [List.head?]
    rw [this]
    rfl

/-- Covered branch with coalescing: `toi` falls through into the next
interval's block, so the two intervals are merged. -/
theorem extend_ok_merge {po : ProgramOrder} {lr : LiveRange} {ebb : Ebb} {toi : Inst}
    {n : Nat} {pre post' : List Interval} {iv q : Interval}
    (hnc : ¬(po.cmp (.ebb ebb) lr.def_end ≠ .gt ∧ po.cmp (.inst toi) lr.def_begin ≠ .lt))
    (hfind : lr.find_ebb_interval ebb po = .ok n)
    (hdc : lr.liveins = pre ++ iv :: q :: post') (hlen : pre.length = n)
    (hgap : po.is_ebb_gap toi q.begin = true)
    (hlt : po.cmp (.inst q.iend) (.inst (iv.extend_to toi po).iend) = .gt) :
    lr.extend_in_ebb ebb toi po =
      some (false, { lr with liveins := pre ++ Interval.mk iv.begin q.iend :: post' }) := by
  unfold LiveRange.extend_in_ebb
  rw [if_neg hnc, hfind]
  dsimp only
  rw [← hlen, hdc, list_getD_at_len, list_set_at_len, list_get?_at_len_succ]
  dsimp only [List.head?]
  rw [hgap, if_pos rfl]
  rw [list_getD_at_len, list_set_at_len, list_eraseIdx_at_len_succ]
  have h1 : ∀ j : Interval, po.cmp (.inst q.iend) (.inst j.iend) = .gt →
      j.extend_to q.iend po = Interval.mk j.begin q.iend := by
    intro j hj
    unfold Interval.extend_to
    rw [if_pos hj]
  rw [h1 _ hlt, extend_to_begin]

theorem list_insertIdx_at_len_succ {α : Type} (pre : List α) (x y : α) (post : List α) :
    (pre ++ x :: post).insertIdx (pre.length + 1) y = pre ++ x :: y :: post := by
  induction pre with
  | nil => rfl
  | cons a l ih =>
    show List.insertIdx (l.length + 1 + 1) y (a :: (l ++ x :: post)) = _
    rw [List.insertIdx_succ_cons, ih]
    rfl

theorem list_set_at_len_succ {α : Type} (pre : List α) (x y z : α) (post : List α) :
    (pre ++ x :: y :: post).set (pre.length + 1) z = pre ++ x :: z :: post := by
  induction pre with
  | nil => rfl
  | cons a l ih => simp [List.set, ih]

/-- Uncovered branch, empty prefix, no coalescing: a fresh singleton interval
is prepended. -/
theorem extend_err_insert_nil {po : ProgramOrder} {lr : LiveRange} {ebb : Ebb} {toi : Inst}
    (hnc : ¬(po.cmp (.ebb ebb) lr.def_end ≠ .gt ∧ po.cmp (.inst toi) lr.def_begin ≠ .lt))
    (hfind : lr.find_ebb_interval ebb po = .error 0)
    (hcn : ∀ q ∈ lr.liveins.head?, po.is_ebb_gap toi q.begin = false) :
    lr.extend_in_ebb ebb toi po =
      some (true, { lr with liveins := Interval.mk ebb toi :: lr.liveins }) := by
  unfold LiveRange.extend_in_ebb
  rw [if_neg hnc, hfind]
  dsimp only
  rw [if_pos rfl]
  dsimp only [Option.elim]
  rcases hL : lr.liveins with _ | ⟨q, rest⟩
  · rfl
  · have hg := hcn q (by rw [hL]; rfl)
    dsimp only [List.get?]
    rw [hg]
    rfl

/-- Uncovered branch, nonempty prefix, no coalescing: a fresh singleton
interval is inserted between prefix and suffix. -/
theorem extend_err_insert_concat {po : ProgramOrder} {lr : LiveRange} {ebb : Ebb}
    {toi : Inst} {n : Nat} {pre' post : List Interval} {p : Interval}
    (hnc : ¬(po.cmp (.ebb ebb) lr.def_end ≠ .gt ∧ po.cmp (.inst toi) lr.def_begin ≠ .lt))
    (hfind : lr.find_ebb_interval ebb po = .error n)
    (hdc : lr.liveins = pre' ++ p :: post) (hlen : pre'.length + 1 = n)
    (hcp : po.is_ebb_gap p.iend ebb = false)
    (hcn : ∀ q ∈ post.head?, po.is_ebb_gap toi q.begin = false) :
    lr.extend_in_ebb ebb toi po =
      some (true, { lr with liveins := pre' ++ p :: Interval.mk ebb toi :: post }) := by
  unfold LiveRange.extend_in_ebb
  rw [if_neg hnc, hfind]
  dsimp only
  rw [← hlen, Nat.add_sub_cancel, hdc, if_neg (Nat.succ_ne_zero _),
    list_get?_at_len, list_get?_at_len_succ]
  dsimp only [Option.elim]
  rw [hcp]
  cases post with
  | nil =>
    dsimp only [List.head?, Option.elim]
    rw [list_insertIdx_at_len_succ]
  | cons q rest =>
    have := hcn q rfl
    dsimp only [List.head?, Option.elim]
    rw [this, list_insertIdx_at_len_succ]

/-- Uncovered branch, coalescing into the predecessor only. -/
theorem extend_err_prev {po : ProgramOrder} {lr : LiveRange} {ebb : Ebb}
    {toi : Inst} {n : Nat} {pre' post : List Interval} {p : Interval}
    (hnc : ¬(po.cmp (.ebb ebb) lr.def_end ≠ .gt ∧ po.cmp (.inst toi) lr.def_begin ≠ .lt))
    (hfind : lr.find_ebb_interval ebb po = .error n)
    (hdc : lr.liveins = pre' ++ p :: post) (hlen : pre'.length + 1 = n)
    (hcp : po.is_ebb_gap p.iend ebb = true)
    (hcn : ∀ q ∈ post.head?, po.is_ebb_gap toi q.begin = false)
    (hplt : po.cmp (.inst toi) (.inst p.iend) = .gt) :
    lr.extend_in_ebb ebb toi po =
      some (true, { lr with liveins := pre' ++ Interval.mk p.begin toi :: post }) := by
  unfold LiveRange.extend_in_ebb
  rw [if_neg hnc, hfind]
  dsimp only
  rw [← hlen, Nat.add_sub_cancel, hdc, if_neg (Nat.succ_ne_zero _),
    list_get?_at_len, list_get?_at_len_succ]
  dsimp only [Option.elim]
  rw [hcp]
  have hext : p.extend_to toi po = Interval.mk p.begin toi := by
    unfold Interval.extend_to
    rw [if_pos hplt]
  cases post with
  | nil =>
    dsimp only [List.head?, Option.elim]
    rw [list_getD_at_len, hext, list_set_at_len]
  | cons q rest =>
    have hg := hcn q rfl
    dsimp only [List.head?, Option.elim]
    rw [hg]
    dsimp only
    rw [list_getD_at_len, hext, list_set_at_len]

/-- Uncovered branch, empty prefix, coalescing into the successor only: the
successor's `begin` is rewritten back to `ebb`. -/
theorem extend_err_next_nil {po : ProgramOrder} {lr : LiveRange} {ebb : Ebb}
    {toi : Inst} {post' : List Interval} {q : Interval}
    (hnc : ¬(po.cmp (.ebb ebb) lr.def_end ≠ .gt ∧ po.cmp (.inst toi) lr.def_begin ≠ .lt))
    (hfind : lr.find_ebb_interval ebb po = .error 0)
    (hdc : lr.liveins = q :: post')
    (hgapn : po.is_ebb_gap toi q.begin = true) :
    lr.extend_in_ebb ebb toi po =
      some (true, { lr with liveins := Interval.mk ebb q.iend :: post' }) := by
  unfold LiveRange.extend_in_ebb
  rw [if_neg hnc, hfind]
  dsimp only
  rw [if_pos rfl, hdc]
  dsimp only [Option.elim, List.get?]
  rw [hgapn]
  rfl

/-- Uncovered branch, nonempty prefix, coalescing into the successor only. -/
theorem extend_err_next_concat {po : ProgramOrder} {lr : LiveRange} {ebb : Ebb}
    {toi : Inst} {n : Nat} {pre' post' : List Interval} {p q : Interval}
    (hnc : ¬(po.cmp (.ebb ebb) lr.def_end ≠ .gt ∧ po.cmp (.inst toi) lr.def_begin ≠ .lt))
    (hfind : lr.find_ebb_interval ebb po = .error n)
    (hdc : lr.liveins = pre' ++ p :: q :: post') (hlen : pre'.length + 1 = n)
    (hcp : po.is_ebb_gap p.iend ebb = false)
    (hgapn : po.is_ebb_gap toi q.begin = true) :
    lr.extend_in_ebb ebb toi po =
      some (true, { lr with liveins := pre' ++ p :: Interval.mk ebb q.iend :: post' }) := by
  unfold LiveRange.extend_in_ebb
  rw [if_neg hnc, hfind]
  dsimp only
  rw [← hlen, Nat.add_sub_cancel, hdc, if_neg (Nat.succ_ne_zero _),
    list_get?_at_len, list_get?_at_len_succ]
  dsimp only [List.head?, Option.elim]
  rw [hcp, hgapn, list_getD_at_len_succ, list_set_at_len_succ]

/-- Uncovered branch, coalescing into both neighbours: the predecessor is
spliced through to the successor's end and the successor entry removed. -/
theorem extend_err_both {po : ProgramOrder} {lr : LiveRange} {ebb : Ebb}
    {toi : Inst} {n : Nat} {pre' post' : List Interval} {p q : Interval}
    (hnc : ¬(po.cmp (.ebb ebb) lr.def_end ≠ .gt ∧ po.cmp (.inst toi) lr.def_begin ≠ .lt))
    (hfind : lr.find_ebb_interval ebb po = .error n)
    (hdc : lr.liveins = pre' ++ p :: q :: post') (hlen : pre'.length + 1 = n)
    (hcp : po.is_ebb_gap p.iend ebb = true)
    (hgapn : po.is_ebb_gap toi q.begin = true)
    (hqlt : po.cmp (.inst q.iend) (.inst p.iend) = .gt) :
    lr.extend_in_ebb ebb toi po =
      some (true, { lr with liveins := pre' ++ Interval.mk p.begin q.iend :: post' }) := by
  unfold LiveRange.extend_in_ebb
  rw [if_neg hnc, hfind]
  dsimp only
  rw [← hlen, Nat.add_sub_cancel, hdc, if_neg (Nat.succ_ne_zero _),
    list_get?_at_len, list_get?_at_len_succ]
  dsimp only [List.head?, Option.elim]
  have hext : p.extend_to q.iend po = Interval.mk p.begin q.iend := by
    unfold Interval.extend_to
    rw [if_pos hqlt]
  rw [hcp, hgapn, list_getD_at_len_succ, list_getD_at_len, hext, list_set_at_len,
    list_eraseIdx_at_len_succ]

/-! ## Preservation of the data-model invariants -/

/-- A point strictly between an instruction and a block header separates them:
the adjacency predicate cannot hold. -/
theorem gap_false_of_between {po : ProgramOrder} (hpo : POValid po) {i : Inst} {e : Ebb}
    (p : ProgramPoint) (h1 : po.idx (.inst i) < po.idx p)
    (h2 : po.idx p < po.idx (.ebb e)) : po.is_ebb_gap i e = false := by
  cases hb : po.is_ebb_gap i e
  · rfl
  · have := hpo.gap_tight i e p hb h1
    omega

/-- `def_end` lies in the same block as `def_begin`. -/
theorem def_end_in {po : ProgramOrder} {lr : LiveRange} {d : Ebb}
    (hpo : POValid po) (hv : Valid po lr) (hd : PPInEbb po lr.def_begin d) :
    PPInEbb po lr.def_end d := by
  obtain ⟨D, hdb, hde⟩ := hv.dblock
  have : D = d := PPInEbb.uniq hpo hdb hd
  exact this ▸ hde

/-- Replacing a middle section of `liveins` by a single interval `x` that fits
between the surrounding prefix and suffix preserves all invariants. -/
theorem valid_mid {po : ProgramOrder} {lr : LiveRange} (hv : Valid po lr)
    (pre mid post : List Interval) {x : Interval}
    (hdc : lr.liveins = pre ++ (mid ++ post))
    (hwfx : po.idx (.ebb x.begin) < po.idx (.inst x.iend))
    (hs₁ : ∀ a ∈ pre, po.idx (.inst a.iend) < po.idx (.ebb x.begin))
    (hs₂ : ∀ b ∈ post, po.idx (.inst x.iend) < po.idx (.ebb b.begin))
    (ha₁ : ∀ a ∈ pre, po.is_ebb_gap a.iend x.begin = false)
    (ha₂ : ∀ b ∈ post, po.is_ebb_gap x.iend b.begin = false)
    (hnd : ∀ d, PPInEbb po lr.def_begin d →
      po.idx (.inst x.iend) < po.idx (.ebb d) ∨ po.idx lr.def_end < po.idx (.ebb x.begin)) :
    Valid po { lr with liveins := pre ++ x :: post } := by
  have hmem_pre : ∀ a ∈ pre, a ∈ lr.liveins := fun a ha =>
    hdc ▸ List.mem_append.2 (Or.inl ha)
  have hmem_post : ∀ b ∈ post, b ∈ lr.liveins := fun b hb =>
    hdc ▸ List.mem_append.2 (Or.inr (List.mem_append.2 (Or.inr hb)))
  have hold := List.pairwise_append.1 (hdc ▸ hv.sorted)
  have holdA := List.pairwise_append.1 (hdc ▸ hv.adjFree)
  constructor
  · exact hv.dblock
  · exact hv.dle
  · -- nonempty intervals
    intro iv hiv
    rcases List.mem_append.1 hiv with h | h
    · exact hv.wf iv (hmem_pre iv h)
    · rcases List.mem_cons.1 h with rfl | h
      · exact hwfx
      · exact hv.wf iv (hmem_post iv h)
  · -- strictly sorted and disjoint
    refine List.pairwise_append.2 ⟨hold.1, ?_, ?_⟩
    · refine List.pairwise_cons.2 ⟨fun b hb => hs₂ b hb, ?_⟩
      exact (List.pairwise_append.1 hold.2.1).2.1
    · intro a ha b hb
      rcases List.mem_cons.1 hb with rfl | hb
      · exact hs₁ a ha
      · exact hold.2.2 a ha b (List.mem_append.2 (Or.inr hb))
  · -- no fall-through adjacency between kept intervals
    refine List.pairwise_append.2 ⟨holdA.1, ?_, ?_⟩
    · refine List.pairwise_cons.2 ⟨fun b hb => ha₂ b hb, ?_⟩
      exact (List.pairwise_append.1 holdA.2.1).2.1
    · intro a ha b hb
      rcases List.mem_cons.1 hb with rfl | hb
      · exact ha₁ a ha
      · exact holdA.2.2 a ha b (List.mem_append.2 (Or.inr hb))
  · -- no overlap with the defining block
    intro d hd iv hiv
    rcases List.mem_append.1 hiv with h | h
    · exact hv.ndef d hd iv (hmem_pre iv h)
    · rcases List.mem_cons.1 h with rfl | h
      · exact hnd d hd
      · exact hv.ndef d hd iv (hmem_post iv h)

theorem extend_to_iend_cases (iv : Interval) (toi : Inst) (po : ProgramOrder) :
    (iv.extend_to toi po).iend = iv.iend ∨ (iv.extend_to toi po).iend = toi := by
  unfold Interval.extend_to
  split
  · exact Or.inr rfl
  · exact Or.inl rfl

theorem extend_to_iend_ge (iv : Interval) (toi : Inst) (po : ProgramOrder) :
    po.idx (.inst iv.iend) ≤ po.idx (.inst (iv.extend_to toi po).iend) := by
  unfold Interval.extend_to
  split
  · rename_i h
    exact Nat.le_of_lt (cmp_eq_gt.1 h)
  · exact Nat.le_refl _

theorem gap_eq_false {po : ProgramOrder} {i : Inst} {e : Ebb}
    (h : ¬ po.is_ebb_gap i e = true) : po.is_ebb_gap i e = false := by
  cases hb : po.is_ebb_gap i e
  · rfl
  · exact absurd hb h

/-- Invariant preservation through the covered (`Ok`) branch of
`extend_in_ebb`. -/
theorem extend_valid_ok {po : ProgramOrder} {lr lr' : LiveRange} {ebb : Ebb}
    {toi : Inst} {b : Bool} {n : Nat}
    (hpo : POValid po) (hv : Valid po lr) (hin : InEbb po toi ebb)
    (hnc : ¬(po.cmp (.ebb ebb) lr.def_end ≠ .gt ∧ po.cmp (.inst toi) lr.def_begin ≠ .lt))
    (hfind : lr.find_ebb_interval ebb po = .ok n)
    (hx : lr.extend_in_ebb ebb toi po = some (b, lr')) :
    Valid po lr' ∧ lr'.def_begin = lr.def_begin ∧ lr'.def_end = lr.def_end := by
  obtain ⟨pre, iv, post, hdc, hlen, hcov⟩ := find_ok_decomp hv.wf hfind
  have hivmem : iv ∈ lr.liveins := hdc ▸ List.mem_append.2 (Or.inr (List.mem_cons_self _ _))
  have hndb : ¬ PPInEbb po lr.def_begin ebb := fun hd =>
    covers_not_defblock hpo hv hivmem hcov hd
  have hsort := List.pairwise_append.1 (hdc ▸ hv.sorted)
  have hsortiv := List.pairwise_cons.1 hsort.2.1
  have hadj := List.pairwise_append.1 (hdc ▸ hv.adjFree)
  have hadjiv := List.pairwise_cons.1 hadj.2.1
  have hivwf := hv.wf iv hivmem
  -- The common `ndef` analysis for an interval replacing `iv` whose begin is
  -- `iv.begin` and whose end `ex` satisfies the stated bounds.
  have hndx : ∀ ex : Inst,
      (po.idx (.inst ex) = po.idx (.inst iv.iend) ∨
        po.idx (.inst ex) = po.idx (.inst toi) ∨
        (∃ q ∈ post.head?, po.idx (.inst ex) = po.idx (.inst q.iend) ∧
          po.is_ebb_gap toi q.begin = true)) →
      ∀ d, PPInEbb po lr.def_begin d →
        po.idx (.inst ex) < po.idx (.ebb d) ∨
          po.idx lr.def_end < po.idx (.ebb iv.begin) := by
    intro ex hex d hd
    have hdne : d ≠ ebb := fun h => hndb (h ▸ hd)
    have hdble := hd.header_le
    have hdeble := (def_end_in hpo hv hd).header_le
    have hdle := hv.dle
    rcases Nat.lt_trichotomy (po.idx (.ebb d)) (po.idx (.ebb ebb)) with hdlt | hdeq | hdgt
    · -- def block before `ebb`: the old right disjunct must hold for `iv`.
      right
      rcases hv.ndef d hd iv hivmem with h | h
      · have := hcov.2
        omega
      · exact h
    · exact absurd (ProgramPoint.ebb.inj (hpo.inj hdeq)) hdne
    · -- def block after `ebb`.
      left
      have hTd := hin.2 d hdgt
      have hIvd : po.idx (.inst iv.iend) < po.idx (.ebb d) := by
        rcases hv.ndef d hd iv hivmem with h | h
        · exact h
        · have := hcov.1
          omega
      rcases hex with h | h | ⟨q, hq, h, hgapq⟩
      · omega
      · omega
      · -- `ex` ends at the following interval's end
        cases post with
        | nil => cases hq
        | cons q' post' =>
          have hqq : q = q' := by
            simpa using hq.symm
          subst hqq
          have hqmem : q ∈ lr.liveins := hdc ▸ List.mem_append.2
            (Or.inr (List.mem_cons_of_mem _ (List.mem_cons_self _ _)))
          rcases hv.ndef d hd q hqmem with h2 | h2
          · omega
          · -- impossible: the def block would sit strictly between `toi` and
            -- `q.begin`, but in this sub-case `toi` falls through into
            -- `q.begin` with nothing in between
            have := hpo.gap_tight toi q.begin (.ebb d) hgapq hTd
            omega
  constructor
  case right =>
    -- the Ok branch never touches the def interval
    by_cases hgap2 : ∃ q post', post = q :: post' ∧ po.is_ebb_gap toi q.begin = true
    · obtain ⟨q, post', rfl, hgap⟩ := hgap2
      have hq1 : po.idx (.ebb ebb) < po.idx (.ebb q.begin) := by
        have := hsortiv.1 q (List.mem_cons_self _ _)
        have := hcov.2
        omega
      have hlt : po.cmp (.inst q.iend) (.inst (iv.extend_to toi po).iend) = .gt := by
        apply cmp_eq_gt.2
        have hTq := hin.2 q.begin hq1
        have hIq := hsortiv.1 q (List.mem_cons_self _ _)
        have hqwf := hv.wf q (hdc ▸ List.mem_append.2
          (Or.inr (List.mem_cons_of_mem _ (List.mem_cons_self _ _))))
        rcases extend_to_iend_cases iv toi po with h | h <;> rw [h] <;> omega
      rw [extend_ok_merge hnc hfind hdc hlen hgap hlt] at hx
      cases hx
      exact ⟨rfl, rfl⟩
    · have hng : ∀ q ∈ post.head?, po.is_ebb_gap toi q.begin = false := by
        intro q hq
        cases post with
        | nil => cases hq
        | cons q' post' =>
          have : q = q' := by simpa using hq.symm
          subst this
          exact gap_eq_false fun hg => hgap2 ⟨q, post', rfl, hg⟩
      rw [extend_ok_nomerge hnc hfind hdc hlen hng] at hx
      cases hx
      exact ⟨rfl, rfl⟩
  case left =>
    by_cases hgap2 : ∃ q post', post = q :: post' ∧ po.is_ebb_gap toi q.begin = true
    · -- coalescing with the successor interval
      obtain ⟨q, post', rfl, hgap⟩ := hgap2
      have hqmem : q ∈ lr.liveins := hdc ▸ List.mem_append.2
        (Or.inr (List.mem_cons_of_mem _ (List.mem_cons_self _ _)))
      have hIq := hsortiv.1 q (List.mem_cons_self _ _)
      have hqwf := hv.wf q hqmem
      have hq1 : po.idx (.ebb ebb) < po.idx (.ebb q.begin) := by
        have := hcov.2; omega
      have hTq := hin.2 q.begin hq1
      have hlt : po.cmp (.inst q.iend) (.inst (iv.extend_to toi po).iend) = .gt := by
        apply cmp_eq_gt.2
        rcases extend_to_iend_cases iv toi po with h | h <;> rw [h] <;> omega
      rw [extend_ok_merge hnc hfind hdc hlen hgap hlt] at hx
      cases hx
      have hqpost := List.pairwise_cons.1 hsortiv.2
      have hqadj := List.pairwise_cons.1 hadjiv.2
      refine valid_mid hv _ ([iv, q]) _ hdc ?_ ?_ ?_ ?_ ?_ ?_
      · -- nonempty
        show po.idx (.ebb iv.begin) < po.idx (.inst q.iend)
        have := hcov.1
        omega
      · intro a ha
        exact hsort.2.2 a ha iv (List.mem_cons_self _ _)
      · intro b hb
        exact hqpost.1 b hb
      · intro a ha
        exact hadj.2.2 a ha iv (List.mem_cons_self _ _)
      · intro b hb
        exact hqadj.1 b hb
      · intro d hd
        exact hndx q.iend (Or.inr (Or.inr ⟨q, rfl, rfl, hgap⟩)) d hd
    · -- no coalescing
      have hng : ∀ q ∈ post.head?, po.is_ebb_gap toi q.begin = false := by
        intro q hq
        cases post with
        | nil => cases hq
        | cons q' post' =>
          have : q = q' := by simpa using hq.symm
          subst this
          exact gap_eq_false fun hg => hgap2 ⟨q, post', rfl, hg⟩
      rw [extend_ok_nomerge hnc hfind hdc hlen hng] at hx
      cases hx
      have hxge := extend_to_iend_ge iv toi po
      refine valid_mid hv _ ([iv]) _ hdc ?_ ?_ ?_ ?_ ?_ ?_
      · rw [extend_to_begin]
        omega
      · intro a ha
        rw [extend_to_begin]
        exact hsort.2.2 a ha iv (List.mem_cons_self _ _)
      · intro b hb
        have h₁ := hsortiv.1 b hb
        have hHb : po.idx (.ebb ebb) < po.idx (.ebb b.begin) := by
          have := hcov.2; omega
        have hTb := hin.2 b.begin hHb
        rcases extend_to_iend_cases iv toi po with h | h <;> rw [h] <;> omega
      · intro a ha
        rw [extend_to_begin]
        exact hadj.2.2 a ha iv (List.mem_cons_self _ _)
      · intro b hb
        rcases extend_to_iend_cases iv toi po with h | h
        · rw [h]
          exact hadjiv.1 b hb
        · rw [h]
          cases post with
          | nil => cases hb
          | cons q post' =>
            rcases List.mem_cons.1 hb with rfl | hb'
            · exact hng b rfl
            · -- `q.begin` separates `toi` from `b.begin`
              have hq1 : po.idx (.ebb ebb) < po.idx (.ebb q.begin) := by
                have := hsortiv.1 q (List.mem_cons_self _ _)
                have := hcov.2
                omega
              have hTq := hin.2 q.begin hq1
              have hqwf := hv.wf q (hdc ▸ List.mem_append.2
                (Or.inr (List.mem_cons_of_mem _ (List.mem_cons_self _ _))))
              have hqb := (List.pairwise_cons.1 hsortiv.2).1 b hb'
              exact gap_false_of_between hpo (.ebb q.begin) hTq (by omega)
      · intro d hd
        have hcase : po.idx (.inst (iv.extend_to toi po).iend) =
            po.idx (.inst iv.iend) ∨
            po.idx (.inst (iv.extend_to toi po).iend) = po.idx (.inst toi) := by
          rcases extend_to_iend_cases iv toi po with h | h <;> rw [h]
          · exact Or.inl rfl
          · exact Or.inr rfl
        rw [extend_to_begin]
        exact hndx _ (by rcases hcase with h | h; exacts [Or.inl h, Or.inr (Or.inl h)]) d hd

/-- Invariant preservation through the uncovered (`Err`) branch of
`extend_in_ebb`. -/
theorem extend_valid_err {po : ProgramOrder} {lr lr' : LiveRange} {ebb : Ebb}
    {toi : Inst} {b : Bool} {n : Nat}
    (hpo : POValid po) (hv : Valid po lr) (hin : InEbb po toi ebb)
    (hprec : PPInEbb po lr.def_begin ebb → po.idx lr.def_begin ≤ po.idx (.inst toi))
    (hnc : ¬(po.cmp (.ebb ebb) lr.def_end ≠ .gt ∧ po.cmp (.inst toi) lr.def_begin ≠ .lt))
    (hfind : lr.find_ebb_interval ebb po = .error n)
    (hx : lr.extend_in_ebb ebb toi po = some (b, lr')) :
    Valid po lr' ∧ lr'.def_begin = lr.def_begin ∧ lr'.def_end = lr.def_end := by
  obtain ⟨pre, post, hdc, hlen, hpreE, hpostB⟩ := find_error_decomp hpo hv.wf hv.sorted hfind
  have hndb : ¬ PPInEbb po lr.def_begin ebb := fun hd =>
    hnc (defblock_defcond hpo hv (hprec hd) hd)
  have hHT := hin.1
  have hTb : ∀ bb ∈ post, po.idx (.inst toi) < po.idx (.ebb bb.begin) := fun bb hb =>
    hin.2 _ (hpostB bb hb)
  have hsortP := List.pairwise_append.1 (hdc ▸ hv.sorted)
  have hadjP := List.pairwise_append.1 (hdc ▸ hv.adjFree)
  -- The `ndef` analysis shared by all four insertion/coalescing cases.
  have hndx : ∀ (bx : Ebb) (ex : Inst),
      (po.idx (.ebb bx) = po.idx (.ebb ebb) ∨
        ∃ p ∈ pre, bx = p.begin ∧ po.is_ebb_gap p.iend ebb = true) →
      (po.idx (.inst ex) = po.idx (.inst toi) ∨
        ∃ q ∈ post, ex = q.iend ∧ po.is_ebb_gap toi q.begin = true) →
      ∀ d, PPInEbb po lr.def_begin d →
        po.idx (.inst ex) < po.idx (.ebb d) ∨
          po.idx lr.def_end < po.idx (.ebb bx) := by
    intro bx ex hbx hex d hd
    have hdne : d ≠ ebb := fun h => hndb (h ▸ hd)
    have hdble := hd.header_le
    have hdeble := (def_end_in hpo hv hd).header_le
    have hdle := hv.dle
    rcases Nat.lt_trichotomy (po.idx (.ebb d)) (po.idx (.ebb ebb)) with hdlt | hdeq | hdgt
    · -- def block before `ebb`
      right
      have hdend := (def_end_in hpo hv hd).lt_later_header hdlt
      rcases hbx with h | ⟨p, hp, rfl, hgp⟩
      · omega
      · have hpmem : p ∈ lr.liveins := hdc ▸ List.mem_append.2 (Or.inl hp)
        rcases hv.ndef d hd p hpmem with h2 | h2
        · have := hpo.gap_tight p.iend ebb (.ebb d) hgp h2
          omega
        · omega
    · exact absurd (ProgramPoint.ebb.inj (hpo.inj hdeq)) hdne
    · -- def block after `ebb`
      left
      have hTd := hin.2 d hdgt
      rcases hex with h | ⟨q, hq, rfl, hgq⟩
      · omega
      · have hqmem : q ∈ lr.liveins := hdc ▸ List.mem_append.2 (Or.inr hq)
        rcases hv.ndef d hd q hqmem with h2 | h2
        · omega
        · have := hpo.gap_tight toi q.begin (.ebb d) hgq hTd
          omega
  -- Adjacency of `toi` with suffix members, given the head is not adjacent.
  have hadjpost : ∀ (q : Interval) (post' : List Interval), post = q :: post' →
      po.is_ebb_gap toi q.begin = false →
      ∀ bb ∈ post, po.is_ebb_gap toi bb.begin = false := by
    intro q post' hpp hgqf bb hb
    subst hpp
    rcases List.mem_cons.1 hb with rfl | hb'
    · exact hgqf
    · have hqwf := hv.wf q (hdc ▸ List.mem_append.2 (Or.inr (List.mem_cons_self _ _)))
      have hqb := (List.pairwise_cons.1 hsortP.2.1).1 bb hb'
      exact gap_false_of_between hpo (.ebb q.begin)
        (hTb q (List.mem_cons_self _ _)) (by omega)
  rcases List.eq_nil_or_concat pre with rfl | ⟨pre', p, rfl⟩
  · -- empty prefix: the insertion happens at the front
    have hn0 : n = 0 := by simpa using hlen.symm
    subst hn0
    have hLpost : lr.liveins = post := by simpa using hdc
    cases post with
    | nil =>
      rw [extend_err_insert_nil hnc hfind
        (fun q' hq' => by rw [hLpost] at hq'; cases hq')] at hx
      cases hx
      refine ⟨?_, rfl, rfl⟩
      rw [hLpost]
      refine valid_mid hv ([]) ([]) ([]) (by simpa using hdc)
        ?_ ?_ ?_ ?_ ?_ ?_
      · exact hHT
      · intro a ha; cases ha
      · intro bb hb; cases hb
      · intro a ha; cases ha
      · intro bb hb; cases hb
      · intro d hd
        exact hndx ebb toi (Or.inl rfl) (Or.inl rfl) d hd
    | cons q post' =>
      have hqmemL : q ∈ lr.liveins := hdc ▸ List.mem_append.2 (Or.inr (List.mem_cons_self _ _))
      have hqwf := hv.wf q hqmemL
      have hqH := hpostB q (List.mem_cons_self _ _)
      by_cases hgq : po.is_ebb_gap toi q.begin = true
      · -- coalesce into the successor
        rw [extend_err_next_nil hnc hfind (by simpa using hdc) hgq] at hx
        cases hx
        refine ⟨?_, rfl, rfl⟩
        refine valid_mid hv ([]) ([q]) (post')
          (by simpa using hdc) ?_ ?_ ?_ ?_ ?_ ?_
        · show po.idx (.ebb ebb) < po.idx (.inst q.iend)
          omega
        · intro a ha; cases ha
        · intro bb hb
          exact (List.pairwise_cons.1 hsortP.2.1).1 bb hb
        · intro a ha; cases ha
        · intro bb hb
          exact (List.pairwise_cons.1 hadjP.2.1).1 bb hb
        · intro d hd
          exact hndx ebb q.iend (Or.inl rfl)
            (Or.inr ⟨q, List.mem_cons_self _ _, rfl, hgq⟩) d hd
      · -- insert a fresh interval at the front
        have hgq' := gap_eq_false hgq
        rw [extend_err_insert_nil hnc hfind (fun q' hq' => by
          rw [hLpost] at hq'
          have : q' = q := by simpa using hq'.symm
          exact this ▸ hgq')] at hx
        cases hx
        refine ⟨?_, rfl, rfl⟩
        rw [hLpost]
        refine valid_mid hv ([]) ([]) (q :: post')
          (by simpa using hdc) ?_ ?_ ?_ ?_ ?_ ?_
        · exact hHT
        · intro a ha; cases ha
        · intro bb hb
          exact hTb bb hb
        · intro a ha; cases ha
        · intro bb hb
          exact hadjpost q post' rfl hgq' bb hb
        · intro d hd
          exact hndx ebb toi (Or.inl rfl) (Or.inl rfl) d hd
  · -- nonempty prefix ending in `p`
    have hlen' : pre'.length + 1 = n := by simpa using hlen
    have hdcp : lr.liveins = pre' ++ p :: post := by
      rw [hdc, List.concat_eq_append, List.append_assoc]; rfl
    have hpPre : p ∈ pre'.concat p := by simp [List.concat_eq_append]
    have hpmemL : p ∈ lr.liveins := hdc ▸ List.mem_append.2 (Or.inl hpPre)
    have hpE := hpreE p hpPre
    have hpwf := hv.wf p hpmemL
    have hsortPre := List.pairwise_append.1
      ((List.concat_eq_append pre' p ▸ hsortP.1 :
        (pre' ++ [p]).Pairwise fun a b =>
          po.idx (.inst a.iend) < po.idx (.ebb b.begin)))
    have hadjPre := List.pairwise_append.1
      ((List.concat_eq_append pre' p ▸ hadjP.1 :
        (pre' ++ [p]).Pairwise fun a b => po.is_ebb_gap a.iend b.begin = false))
    have hsPrev : ∀ a ∈ pre', po.idx (.inst a.iend) < po.idx (.ebb p.begin) :=
      fun a ha => hsortPre.2.2 a ha p (by simp)
    have haPrev : ∀ a ∈ pre', po.is_ebb_gap a.iend p.begin = false :=
      fun a ha => hadjPre.2.2 a ha p (by simp)
    -- Adjacency of prefix members with `ebb`, given `p` is not adjacent.
    have hadjpre : po.is_ebb_gap p.iend ebb = false →
        ∀ a ∈ pre'.concat p, po.is_ebb_gap a.iend ebb = false := by
      intro hgpf a ha
      rcases (by simpa [List.concat_eq_append] using ha : a ∈ pre' ∨ a = p) with ha' | rfl
      · exact gap_false_of_between hpo (.ebb p.begin) (hsPrev a ha') (by omega)
      · exact hgpf
    by_cases hgp : po.is_ebb_gap p.iend ebb = true
    · -- coalesce into the predecessor
      have hplt : po.cmp (.inst toi) (.inst p.iend) = .gt := cmp_eq_gt.2 (by omega)
      cases post with
      | nil =>
        rw [extend_err_prev hnc hfind hdcp hlen' hgp (fun q hq => by cases hq) hplt] at hx
        cases hx
        refine ⟨?_, rfl, rfl⟩
        refine valid_mid hv (pre') ([p]) ([])
          (by simpa using hdcp) ?_ ?_ ?_ ?_ ?_ ?_
        · show po.idx (.ebb p.begin) < po.idx (.inst toi)
          omega
        · intro a ha
          exact hsPrev a ha
        · intro bb hb; cases hb
        · intro a ha
          exact haPrev a ha
        · intro bb hb; cases hb
        · intro d hd
          exact hndx p.begin toi (Or.inr ⟨p, hpPre, rfl, hgp⟩) (Or.inl rfl) d hd
      | cons q post' =>
        have hqmemL : q ∈ lr.liveins := hdc ▸ List.mem_append.2
          (Or.inr (List.mem_cons_self _ _))
        have hqwf := hv.wf q hqmemL
        have hqH := hpostB q (List.mem_cons_self _ _)
        by_cases hgq : po.is_ebb_gap toi q.begin = true
        · -- coalesce into both neighbours
          have hqlt : po.cmp (.inst q.iend) (.inst p.iend) = .gt := cmp_eq_gt.2 (by omega)
          rw [extend_err_both hnc hfind hdcp hlen' hgp hgq hqlt] at hx
          cases hx
          refine ⟨?_, rfl, rfl⟩
          refine valid_mid hv (pre') ([p, q]) (post')
            (by simpa using hdcp) ?_ ?_ ?_ ?_ ?_ ?_
          · show po.idx (.ebb p.begin) < po.idx (.inst q.iend)
            omega
          · intro a ha
            exact hsPrev a ha
          · intro bb hb
            exact (List.pairwise_cons.1 hsortP.2.1).1 bb hb
          · intro a ha
            exact haPrev a ha
          · intro bb hb
            exact (List.pairwise_cons.1 hadjP.2.1).1 bb hb
          · intro d hd
            exact hndx p.begin q.iend (Or.inr ⟨p, hpPre, rfl, hgp⟩)
              (Or.inr ⟨q, List.mem_cons_self _ _, rfl, hgq⟩) d hd
        · -- coalesce into predecessor only
          have hgq' := gap_eq_false hgq
          rw [extend_err_prev hnc hfind hdcp hlen' hgp (fun q' hq' => by
            have : q' = q := by simpa using hq'.symm
            exact this ▸ hgq') hplt] at hx
          cases hx
          refine ⟨?_, rfl, rfl⟩
          refine valid_mid hv (pre') ([p]) (q :: post')
            (by simpa using hdcp) ?_ ?_ ?_ ?_ ?_ ?_
          · show po.idx (.ebb p.begin) < po.idx (.inst toi)
            omega
          · intro a ha
            exact hsPrev a ha
          · intro bb hb
            exact hTb bb hb
          · intro a ha
            exact haPrev a ha
          · intro bb hb
            exact hadjpost q post' rfl hgq' bb hb
          · intro d hd
            exact hndx p.begin toi (Or.inr ⟨p, hpPre, rfl, hgp⟩) (Or.inl rfl) d hd
    · -- no coalescing with the predecessor
      have hgp' := gap_eq_false hgp
      cases post with
      | nil =>
        rw [extend_err_insert_concat hnc hfind hdcp hlen' hgp'
          (fun q hq => by cases hq)] at hx
        cases hx
        refine ⟨?_, rfl, rfl⟩
        have hassoc : pre' ++ p :: Interval.mk ebb toi :: ([] : List Interval) =
            (pre' ++ [p]) ++ Interval.mk ebb toi :: ([] : List Interval) := by
          simp
        rw [hassoc]
        refine valid_mid hv (pre' ++ [p]) ([]) ([])
          (by simpa [List.concat_eq_append] using hdc) ?_ ?_ ?_ ?_ ?_ ?_
        · exact hHT
        · intro a ha
          exact hpreE a (by simpa [List.concat_eq_append] using ha)
        · intro bb hb; cases hb
        · intro a ha
          exact hadjpre hgp' a (by simpa [List.concat_eq_append] using ha)
        · intro bb hb; cases hb
        · intro d hd
          exact hndx ebb toi (Or.inl rfl) (Or.inl rfl) d hd
      | cons q post' =>
        have hqmemL : q ∈ lr.liveins := hdc ▸ List.mem_append.2
          (Or.inr (List.mem_cons_self _ _))
        have hqwf := hv.wf q hqmemL
        have hqH := hpostB q (List.mem_cons_self _ _)
        by_cases hgq : po.is_ebb_gap toi q.begin = true
        · -- coalesce into successor only
          rw [extend_err_next_concat hnc hfind hdcp hlen' hgp' hgq] at hx
          cases hx
          refine ⟨?_, rfl, rfl⟩
          have hassoc : pre' ++ p :: Interval.mk ebb q.iend :: post' =
              (pre' ++ [p]) ++ Interval.mk ebb q.iend :: post' := by
            simp
          rw [hassoc]
          refine valid_mid hv (pre' ++ [p]) ([q]) (post')
            (by simpa [List.concat_eq_append] using hdcp) ?_ ?_ ?_ ?_ ?_ ?_
          · show po.idx (.ebb ebb) < po.idx (.inst q.iend)
            omega
          · intro a ha
            exact hpreE a (by simpa [List.concat_eq_append] using ha)
          · intro bb hb
            exact (List.pairwise_cons.1 hsortP.2.1).1 bb hb
          · intro a ha
            exact hadjpre hgp' a (by simpa [List.concat_eq_append] using ha)
          · intro bb hb
            exact (List.pairwise_cons.1 hadjP.2.1).1 bb hb
          · intro d hd
            exact hndx ebb q.iend (Or.inl rfl)
              (Or.inr ⟨q, List.mem_cons_self _ _, rfl, hgq⟩) d hd
        · -- no coalescing at all: fresh singleton interval
          have hgq' := gap_eq_false hgq
          rw [extend_err_insert_concat hnc hfind hdcp hlen' hgp' (fun q' hq' => by
            have : q' = q := by simpa using hq'.symm
            exact this ▸ hgq')] at hx
          cases hx
          refine ⟨?_, rfl, rfl⟩
          have hassoc : pre' ++ p :: Interval.mk ebb toi :: q :: post' =
              (pre' ++ [p]) ++ Interval.mk ebb toi :: q :: post' := by
            simp
          rw [hassoc]
          refine valid_mid hv (pre' ++ [p]) ([]) (q :: post')
            (by simpa [List.concat_eq_append] using hdc) ?_ ?_ ?_ ?_ ?_ ?_
          · exact hHT
          · intro a ha
            exact hpreE a (by simpa [List.concat_eq_append] using ha)
          · intro bb hb
            exact hTb bb hb
          · intro a ha
            exact hadjpre hgp' a (by simpa [List.concat_eq_append] using ha)
          · intro bb hb
            exact hadjpost q post' rfl hgq' bb hb
          · intro d hd
            exact hndx ebb toi (Or.inl rfl) (Or.inl rfl) d hd

/-- Invariant preservation through the def-interval branch of
`extend_in_ebb`. -/
theorem extend_valid_def {po : ProgramOrder} {lr lr' : LiveRange} {ebb : Ebb}
    {toi : Inst} {b : Bool}
    (hpo : POValid po) (hv : Valid po lr) (hin : InEbb po toi ebb)
    (hc : po.cmp (.ebb ebb) lr.def_end ≠ .gt ∧ po.cmp (.inst toi) lr.def_begin ≠ .lt)
    (hx : lr.extend_in_ebb ebb toi po = some (b, lr')) :
    Valid po lr' ∧ lr'.def_begin = lr.def_begin ∧ lr'.liveins = lr.liveins := by
  obtain ⟨hdb, hde⟩ := defcond_defblock hpo hv hin hc.1 hc.2
  by_cases hne : ProgramPoint.inst toi = lr.def_begin
  · rw [extend_def_panic hc hne] at hx
    cases hx
  · by_cases hgt : po.cmp (.inst toi) lr.def_end = .gt
    · rw [extend_def_widen hc hne hgt] at hx
      cases hx
      refine ⟨?_, rfl, rfl⟩
      constructor
      · exact ⟨ebb, hdb, hin⟩
      · exact cmp_ne_lt.1 hc.2
      · exact hv.wf
      · exact hv.sorted
      · exact hv.adjFree
      · intro d hd iv hiv
        have hdeq : d = ebb := PPInEbb.uniq hpo hd hdb
        subst hdeq
        rcases hv.ndef d hd iv hiv with h | h
        · exact Or.inl h
        · -- interval begins after the old def end, which is in `ebb`;
          -- `toi` is also in `ebb`, so the interval stays after the new end
          have h1 := hde.header_le
          have h2 : po.idx (.ebb d) < po.idx (.ebb iv.begin) := by omega
          exact Or.inr (hin.2 iv.begin h2)
    · rw [extend_def_nowiden hc hne hgt] at hx
      cases hx
      exact ⟨hv, rfl, rfl⟩

/-- Invariant preservation: `extend_in_ebb` maintains all `LiveRange`
data-model invariants whenever it returns (it may also hit the
use-at-own-def assertion and panic). -/
theorem extend_preserves_valid {po : ProgramOrder} {lr lr' : LiveRange} {ebb : Ebb}
    {toi : Inst} {b : Bool}
    (hpo : POValid po) (hv : Valid po lr) (hin : InEbb po toi ebb)
    (hprec : PPInEbb po lr.def_begin ebb → po.idx lr.def_begin ≤ po.idx (.inst toi))
    (hx : lr.extend_in_ebb ebb toi po = some (b, lr')) :
    Valid po lr' ∧ lr'.def_begin = lr.def_begin := by
  by_cases hc : po.cmp (.ebb ebb) lr.def_end ≠ .gt ∧ po.cmp (.inst toi) lr.def_begin ≠ .lt
  · obtain ⟨h1, h2, -⟩ := extend_valid_def hpo hv hin hc hx
    exact ⟨h1, h2⟩
  · cases hfind : lr.find_ebb_interval ebb po with
    | ok n =>
      obtain ⟨h1, h2, -⟩ := extend_valid_ok hpo hv hin hc hfind hx
      exact ⟨h1, h2⟩
    | error n =>
      obtain ⟨h1, h2, -⟩ := extend_valid_err hpo hv hin hprec hc hfind hx
      exact ⟨h1, h2⟩

/-! ## Further branch facts and concrete-order lemmas -/

/-- The covered branch always returns `false`. -/
theorem extend_ok_ret {po : ProgramOrder} {lr : LiveRange} {ebb : Ebb} {toi : Inst} {n : Nat}
    (hnc : ¬(po.cmp (.ebb ebb) lr.def_end ≠ .gt ∧ po.cmp (.inst toi) lr.def_begin ≠ .lt))
    (hfind : lr.find_ebb_interval ebb po = .ok n) :
    ∃ lr₂, lr.extend_in_ebb ebb toi po = some (false, lr₂) := by
  unfold LiveRange.extend_in_ebb
  rw [if_neg hnc, hfind]
  exact ⟨_, rfl⟩

/-- The uncovered branch always returns `true`. -/
theorem extend_err_ret {po : ProgramOrder} {lr : LiveRange} {ebb : Ebb} {toi : Inst} {n : Nat}
    (hnc : ¬(po.cmp (.ebb ebb) lr.def_end ≠ .gt ∧ po.cmp (.inst toi) lr.def_begin ≠ .lt))
    (hfind : lr.find_ebb_interval ebb po = .error n) :
    ∃ lr₂, lr.extend_in_ebb ebb toi po = some (true, lr₂) := by
  unfold LiveRange.extend_in_ebb
  rw [if_neg hnc, hfind]
  exact ⟨_, rfl⟩

/-- The def branch always returns `false` when it does not panic. -/
theorem extend_def_ret {po : ProgramOrder} {lr lr₂ : LiveRange} {ebb : Ebb} {toi : Inst}
    {b : Bool}
    (hc : po.cmp (.ebb ebb) lr.def_end ≠ .gt ∧ po.cmp (.inst toi) lr.def_begin ≠ .lt)
    (hx : lr.extend_in_ebb ebb toi po = some (b, lr₂)) : b = false := by
  by_cases hne : ProgramPoint.inst toi = lr.def_begin
  · rw [extend_def_panic hc hne] at hx
    cases hx
  · by_cases hgt : po.cmp (.inst toi) lr.def_end = .gt
    · rw [extend_def_widen hc hne hgt] at hx
      cases hx
      rfl
    · rw [extend_def_nowiden hc hne hgt] at hx
      cases hx
      rfl

/-- `extend_to` does nothing when the target is not past the current end. -/
theorem extend_to_noop {po : ProgramOrder} {iv : Interval} {toi : Inst}
    (h : po.cmp (.inst toi) (.inst iv.iend) ≠ .gt) : iv.extend_to toi po = iv := by
  unfold Interval.extend_to
  rw [if_neg h]

/-- `livein_local_end` answers `some i` exactly when some live-in interval
covers `ebb` and ends at `i`. -/
theorem livein_local_end_spec {po : ProgramOrder} {lr : LiveRange} {ebb : Ebb} {i : Inst}
    (hv : Valid po lr) :
    lr.livein_local_end ebb po = some i ↔
      ∃ iv ∈ lr.liveins, coversEbb po iv ebb ∧ iv.iend = i := by
  constructor
  · intro h
    unfold LiveRange.livein_local_end at h
    cases hf : lr.find_ebb_interval ebb po with
    | ok n =>
      rw [hf] at h
      obtain ⟨pre, iv, post, hdc, hlen, hcov⟩ := find_ok_decomp hv.wf hf
      have hget : lr.liveins.getD n default = iv := by
        rw [hdc, ← hlen]
        exact list_getD_at_len pre iv post
      replace h : some ((lr.liveins.getD n default).iend) = some i := h
      rw [hget] at h
      exact ⟨iv, hdc ▸ List.mem_append.2 (Or.inr (List.mem_cons_self _ _)), hcov,
        by injection h⟩
    | error n =>
      rw [hf] at h
      cases h
  · rintro ⟨iv, hmem, hcov, rfl⟩
    obtain ⟨pre, post, hdc⟩ := List.append_of_mem hmem
    have hf := find_eq_ok hv.wf hv.sorted hdc hcov
    unfold LiveRange.livein_local_end
    rw [hf]
    show some ((lr.liveins.getD pre.length default).iend) = some iv.iend
    rw [hdc, list_getD_at_len]

/-- If no live-in interval covers `ebb`, `livein_local_end` answers `none`. -/
theorem livein_local_end_none {po : ProgramOrder} {lr : LiveRange} {ebb : Ebb}
    (hv : Valid po lr)
    (hncov : ∀ iv ∈ lr.liveins, ¬ coversEbb po iv ebb) :
    lr.livein_local_end ebb po = none := by
  unfold LiveRange.livein_local_end
  cases hf : lr.find_ebb_interval ebb po with
  | ok n =>
    obtain ⟨pre, iv, post, hdc, hlen, hcov⟩ := find_ok_decomp hv.wf hf
    exact absurd hcov
      (hncov iv (hdc ▸ List.mem_append.2 (Or.inr (List.mem_cons_self _ _))))
  | error n => rfl

theorem poW_idx_inst (i : Inst) : poW.idx (.inst i) = 2 * i + 1 := rfl

theorem poW_idx_ebb (e : Ebb) : poW.idx (.ebb e) = 2 * e := rfl

theorem poI_idx_inst (i : Inst) : poI.idx (.inst i) = 2 * i + 1 := rfl

theorem poI_idx_ebb (e : Ebb) : poI.idx (.ebb e) = 2 * e := rfl

/- `omega` does not look through the `Inst`/`Ebb` abbreviations in binder
types, so the concrete-order proofs go through these `Nat`-typed facts. -/

theorem nat2eq1 {x y : Nat} (h : 2 * x + 1 = 2 * y + 1) : x = y := by omega

theorem nat2eq2 {x y : Nat} (h : 2 * x = 2 * y) : x = y := by omega

theorem nat2ne1 (x y : Nat) : ¬ (2 * x + 1 = 2 * y) := by omega

theorem nat2ne2 (x y : Nat) : ¬ (2 * x = 2 * y + 1) := by omega

theorem nat2lt1 (x : Nat) : 2 * x < 2 * x + 1 := by omega

theorem nat2lt2 {x y : Nat} (h : 2 * x < 2 * y) : 2 * x + 1 < 2 * y := by omega

theorem nat2lt3 {x y : Nat} (h : 2 * x + 1 < 2 * y + 1) : 2 * (x + 1) ≤ 2 * y + 1 := by
  omega

theorem nat2lt4 {x y : Nat} (h : 2 * x + 1 < 2 * y) : 2 * (x + 1) ≤ 2 * y := by omega

theorem nat2lt5 (x : Nat) : 2 * x + 1 < 2 * (x + 1) := by omega

theorem poW_valid : POValid poW := by
  constructor
  · intro a b h
    cases a with
    | inst i =>
      cases b with
      | inst j =>
        rw [poW_idx_inst, poW_idx_inst] at h
        rw [nat2eq1 h]
      | ebb e =>
        rw [poW_idx_inst, poW_idx_ebb] at h
        exact absurd h (nat2ne1 i e)
    | ebb e =>
      cases b with
      | inst j =>
        rw [poW_idx_ebb, poW_idx_inst] at h
        exact absurd h (nat2ne2 e j)
      | ebb e' =>
        rw [poW_idx_ebb, poW_idx_ebb] at h
        rw [nat2eq2 h]
  · intro i e h
    have he : e = i + 1 := by simpa [poW, ProgramOrder.is_ebb_gap] using h
    subst he
    rw [poW_idx_inst, poW_idx_ebb]
    exact nat2lt5 i
  · intro i e p h h2
    have he : e = i + 1 := by simpa [poW, ProgramOrder.is_ebb_gap] using h
    subst he
    cases p with
    | inst j =>
      rw [poW_idx_inst, poW_idx_inst] at h2
      rw [poW_idx_ebb, poW_idx_inst]
      exact nat2lt3 h2
    | ebb e' =>
      rw [poW_idx_inst, poW_idx_ebb] at h2
      rw [poW_idx_ebb, poW_idx_ebb]
      exact nat2lt4 h2

theorem poI_valid : POValid poI := by
  constructor
  · intro a b h
    cases a with
    | inst i =>
      cases b with
      | inst j =>
        rw [poI_idx_inst, poI_idx_inst] at h
        rw [nat2eq1 h]
      | ebb e =>
        rw [poI_idx_inst, poI_idx_ebb] at h
        exact absurd h (nat2ne1 i e)
    | ebb e =>
      cases b with
      | inst j =>
        rw [poI_idx_ebb, poI_idx_inst] at h
        exact absurd h (nat2ne2 e j)
      | ebb e' =>
        rw [poI_idx_ebb, poI_idx_ebb] at h
        rw [nat2eq2 h]
  · intro i e h
    exact absurd h (by simp [poI, ProgramOrder.is_ebb_gap])
  · intro i e p h
    exact absurd h (by simp [poI, ProgramOrder.is_ebb_gap])

theorem inEbbW (k : Nat) : InEbb poW k k := by
  constructor
  · rw [poW_idx_ebb, poW_idx_inst]
    exact nat2lt1 k
  · intro e' h
    rw [poW_idx_ebb, poW_idx_ebb] at h
    rw [poW_idx_inst, poW_idx_ebb]
    exact nat2lt2 h

theorem inEbbI (k : Nat) : InEbb poI k k := by
  constructor
  · rw [poI_idx_ebb, poI_idx_inst]
    exact nat2lt1 k
  · intro e' h
    rw [poI_idx_ebb, poI_idx_ebb] at h
    rw [poI_idx_inst, poI_idx_ebb]
    exact nat2lt2 h

theorem lrW_valid : Valid poW lrW := by
  constructor
  · exact ⟨0, inEbbW 0, inEbbW 0⟩
  · exact Nat.le_refl _
  · intro iv hiv
    exact absurd hiv (by simp [lrW, LiveRange.new])
  · simp [lrW, LiveRange.new]
  · simp [lrW, LiveRange.new]
  · intro d hd iv hiv
    exact absurd hiv (by simp [lrW, LiveRange.new])

theorem lrW2_valid : Valid poW lrW2 := by
  constructor
  · exact ⟨0, inEbbW 0, inEbbW 0⟩
  · exact Nat.le_refl _
  · intro iv hiv
    have : iv = Interval.mk 2 2 := by simpa [lrW2] using hiv
    subst this
    decide
  · simp [lrW2]
  · simp [lrW2]
  · intro d hd iv hiv
    have hiv2 : iv = Interval.mk 2 2 := by simpa [lrW2] using hiv
    subst hiv2
    have hd0 : (0 : Ebb) = d := InEbb.unique poW_valid (inEbbW 0) hd
    cases hd0
    exact Or.inr (by decide)

theorem lrC5_valid : Valid poI lrC5 := by
  constructor
  · exact ⟨0, rfl, inEbbI 0⟩
  · decide
  · intro iv hiv
    have : iv = Interval.mk 2 2 := by simpa [lrC5] using hiv
    subst this
    decide
  · simp [lrC5]
  · simp [lrC5]
  · intro d hd iv hiv
    have hiv2 : iv = Interval.mk 2 2 := by simpa [lrC5] using hiv
    subst hiv2
    have hd0 : (0 : Ebb) = d := hd
    cases hd0
    exact Or.inr (by decide)

/-! ## The claims -/

/-- C10: The def-end half of `killed_at` ignores the block argument: for every
`LiveRange` whose `def_local_end` equals instruction `user`,
`killed_at user b order` returns `true` for every block `b`, including blocks
unrelated to the defining block — the structure performs no check that `user`
belongs to `b`. -/
theorem C10_killed_at_ignores_block (po : ProgramOrder) (lr : LiveRange) (user : Inst)
    (h : lr.def_end = ProgramPoint.inst user) :
    ∀ b : Ebb, lr.killed_at user b po = true := by
  intro b
  unfold LiveRange.killed_at LiveRange.def_local_end
  rw [h]
  simp

/-- Witness for C10 at a concrete dead value defined at instruction 5,
queried in the unrelated block 77. -/
theorem C10_witness : lrC10.def_end = ProgramPoint.inst 5 ∧
    lrC10.killed_at 5 77 poW = true :=
  ⟨rfl, C10_killed_at_ignores_block poW lrC10 5 rfl 77⟩

/-- C8: `extend_in_ebb(block, to, order)` fails with a fatal assertion
(modelled as `none`) exactly when the call reaches the def-interval branch
with `to` equal to `def_begin` — a value used at its own defining
instruction; for all other inputs the operation returns normally. -/
theorem C8_extend_in_ebb_panic_iff (po : ProgramOrder) (lr : LiveRange) (ebb : Ebb)
    (toi : Inst) :
    lr.extend_in_ebb ebb toi po = none ↔
      (po.cmp (.ebb ebb) lr.def_end ≠ .gt ∧ po.cmp (.inst toi) lr.def_begin ≠ .lt) ∧
        ProgramPoint.inst toi = lr.def_begin := by
  by_cases hc : po.cmp (.ebb ebb) lr.def_end ≠ .gt ∧ po.cmp (.inst toi) lr.def_begin ≠ .lt
  · by_cases hne : ProgramPoint.inst toi = lr.def_begin
    · rw [extend_def_panic hc hne]
      exact ⟨fun _ => ⟨hc, hne⟩, fun _ => rfl⟩
    · constructor
      · intro h
        by_cases hgt : po.cmp (.inst toi) lr.def_end = .gt
        · rw [extend_def_widen hc hne hgt] at h
          cases h
        · rw [extend_def_nowiden hc hne hgt] at h
          cases h
      · intro h
        exact absurd h.2 hne
  · constructor
    · intro h
      cases hfind : lr.find_ebb_interval ebb po with
      | ok n =>
        obtain ⟨lr₂, he⟩ := extend_ok_ret hc hfind
        rw [he] at h
        cases h
      | error n =>
        obtain ⟨lr₂, he⟩ := extend_err_ret hc hfind
        rw [he] at h
        cases h
    · intro h
      exact absurd h.1 hc

/-- C9: `killed_at(user, block, order)` returns `true` if and only if `user`
is exactly the def-interval end or exactly the end of the live-in interval
covering `block`. -/
theorem C9_killed_at_spec (po : ProgramOrder) (lr : LiveRange) (user : Inst) (ebb : Ebb)
    (hv : Valid po lr) :
    lr.killed_at user ebb po = true ↔
      lr.def_end = ProgramPoint.inst user ∨
        ∃ iv ∈ lr.liveins, coversEbb po iv ebb ∧ iv.iend = user := by
  unfold LiveRange.killed_at LiveRange.def_local_end
  rw [Bool.or_eq_true, beq_iff_eq, beq_iff_eq]
  constructor
  · rintro (h | h)
    · exact Or.inl h
    · exact Or.inr ((livein_local_end_spec hv).1 h)
  · rintro (h | h)
    · exact Or.inl h
    · exact Or.inr ((livein_local_end_spec hv).2 h)

/-- Witness for C9 on a valid live range with one live-in interval for
block 2 ending at instruction 2. -/
theorem C9_witness : Valid poW lrW2 ∧
    (lrW2.killed_at 2 2 poW = true ↔
      lrW2.def_end = ProgramPoint.inst 2 ∨
        ∃ iv ∈ lrW2.liveins, coversEbb poW iv 2 ∧ iv.iend = 2) :=
  ⟨lrW2_valid, C9_killed_at_spec poW lrW2 2 2 lrW2_valid⟩

/-- C5, counterexample to the claim as stated: at a point lying exactly *at*
the live-in interval's end (`point = inst 2`, the end of block 2's live-in
interval), `overlaps_def` returns `false`, although the point is "at or
before" the live-in end and outside the def interval — so the claimed
iff fails. -/
theorem C5_counterexample :
    Valid poI lrC5 ∧
    lrC5.livein_local_end 2 poI = some 2 ∧
    poI.idx (.inst 2) ≤ poI.idx (.inst 2) ∧
    ¬(poI.idx lrC5.def_begin ≤ poI.idx (.inst 2) ∧
        poI.idx (.inst 2) < poI.idx lrC5.def_end) ∧
    lrC5.overlaps_def (.inst 2) 2 poI = false :=
  ⟨lrC5_valid, by decide, by decide, by decide, by decide⟩

/-- C5 (amended): `overlaps_def(point, block, order)` returns `true` if and
only if `point` lies inside the half-open def interval
`[def_begin, def_end)`, or `block` is live-in and `point` is *strictly
before* (not "at or before") the live-in interval's end for `block`. -/
theorem C5_overlaps_def_spec (po : ProgramOrder) (lr : LiveRange) (dp : ProgramPoint)
    (ebb : Ebb) (hv : Valid po lr) :
    lr.overlaps_def dp ebb po = true ↔
      (po.idx lr.def_begin ≤ po.idx dp ∧ po.idx dp < po.idx lr.def_end) ∨
        ∃ iv ∈ lr.liveins, coversEbb po iv ebb ∧
          po.idx dp < po.idx (.inst iv.iend) := by
  unfold LiveRange.overlaps_def
  split
  · rename_i hcond
    exact ⟨fun _ => Or.inl ⟨cmp_ne_lt.1 hcond.1, cmp_eq_lt.1 hcond.2⟩, fun _ => rfl⟩
  · rename_i hcond
    have hnl : ¬(po.idx lr.def_begin ≤ po.idx dp ∧ po.idx dp < po.idx lr.def_end) :=
      fun hh => hcond ⟨cmp_ne_lt.2 hh.1, cmp_eq_lt.2 hh.2⟩
    cases hll : lr.livein_local_end ebb po with
    | some i =>
      show decide (po.cmp dp (.inst i) = Ordering.lt) = true ↔ _
      rw [decide_eq_true_eq, cmp_eq_lt]
      obtain ⟨iv, hmem, hcov, hend⟩ := (livein_local_end_spec hv).1 hll
      constructor
      · intro h
        exact Or.inr ⟨iv, hmem, hcov, by rw [hend]; exact h⟩
      · rintro (h | ⟨iv', hmem', hcov', hlt'⟩)
        · exact absurd h hnl
        · have h2 := (livein_local_end_spec hv).2 ⟨iv', hmem', hcov', rfl⟩
          rw [hll] at h2
          have : iv'.iend = i := by
            have h3 : i = iv'.iend := by injection h2
            exact h3.symm
          rw [← this]
          exact hlt'
    | none =>
      show false = true ↔ _
      constructor
      · intro h
        exact absurd h (by simp)
      · rintro (h | ⟨iv', hmem', hcov', hlt'⟩)
        · exact absurd h hnl
        · have h2 := (livein_local_end_spec hv).2 ⟨iv', hmem', hcov', rfl⟩
          rw [hll] at h2
          cases h2

/-- Witness for the amended C5 at a concrete point strictly inside a live-in
interval. -/
theorem C5_witness : Valid poI lrC5 ∧
    (lrC5.overlaps_def (.ebb 2) 2 poI = true ↔
      (poI.idx lrC5.def_begin ≤ poI.idx (.ebb 2) ∧
          poI.idx (.ebb 2) < poI.idx lrC5.def_end) ∨
        ∃ iv ∈ lrC5.liveins, coversEbb poI iv 2 ∧
          poI.idx (.ebb 2) < poI.idx (.inst iv.iend)) :=
  ⟨lrC5_valid, C5_overlaps_def_spec poI lrC5 (.ebb 2) 2 lrC5_valid⟩

/-- C1: in a valid state (with `to` inside `block` and the documented
precondition on the defining block), `extend_in_ebb` returns `false` when
`block`/`to` falls in the def interval's block or an existing live-in
interval already covers `block`, and returns `true` exactly when `block` was
not previously covered. -/
theorem C1_extend_in_ebb_newly_livein (po : ProgramOrder) (lr lr' : LiveRange)
    (ebb : Ebb) (toi : Inst) (b : Bool)
    (hpo : POValid po) (hv : Valid po lr) (hin : InEbb po toi ebb)
    (hprec : PPInEbb po lr.def_begin ebb → po.idx lr.def_begin ≤ po.idx (.inst toi))
    (hx : lr.extend_in_ebb ebb toi po = some (b, lr')) :
    b = true ↔
      ¬(PPInEbb po lr.def_begin ebb ∨ ∃ iv ∈ lr.liveins, coversEbb po iv ebb) := by
  by_cases hc : po.cmp (.ebb ebb) lr.def_end ≠ .gt ∧ po.cmp (.inst toi) lr.def_begin ≠ .lt
  · have hb := extend_def_ret hc hx
    subst hb
    have hdb := (defcond_defblock hpo hv hin hc.1 hc.2).1
    exact ⟨fun h => absurd h (by simp), fun h => absurd (Or.inl hdb) h⟩
  · cases hfind : lr.find_ebb_interval ebb po with
    | ok n =>
      obtain ⟨lr₂, he⟩ := extend_ok_ret hc hfind
      rw [he] at hx
      cases hx
      obtain ⟨pre, iv, post, hdc, hlen, hcov⟩ := find_ok_decomp hv.wf hfind
      refine ⟨fun h => absurd h (by simp), fun h => absurd (Or.inr ⟨iv, ?_, hcov⟩) h⟩
      exact hdc ▸ List.mem_append.2 (Or.inr (List.mem_cons_self _ _))
    | error n =>
      obtain ⟨lr₂, he⟩ := extend_err_ret hc hfind
      rw [he] at hx
      cases hx
      constructor
      · intro _
        rintro (hdb | ⟨iv, hmem, hcov⟩)
        · exact hc (defblock_defcond hpo hv (hprec hdb) hdb)
        · obtain ⟨pre, post, hdc⟩ := List.append_of_mem hmem
          have hok := find_eq_ok hv.wf hv.sorted hdc hcov
          rw [hfind] at hok
          cases hok
      · intro _
        rfl

/-- Witness for C1: extending a dead value defined at instruction 0 into the
uncovered block 2 returns `true`. -/
theorem C1_witness : Valid poW lrW ∧ InEbb poW 2 2 ∧
    (true = true ↔
      ¬(PPInEbb poW lrW.def_begin 2 ∨ ∃ iv ∈ lrW.liveins, coversEbb poW iv 2)) :=
  ⟨lrW_valid, inEbbW 2,
    C1_extend_in_ebb_newly_livein poW lrW lrW2 2 2 true poW_valid lrW_valid (inEbbW 2)
      (fun hd => absurd (InEbb.unique poW_valid (inEbbW 0) hd) (by decide))
      rfl⟩

/-- C2: for every `LiveRange` satisfying the data-model invariants and every
`extend_in_ebb(block, to, order)` call with `to` inside `block` (and a
consistent program order), the invariants hold again after the call: the
live-in intervals are strictly sorted and pairwise disjoint, and no entry
overlaps the defining block's span. -/
theorem C2_extend_in_ebb_invariants (po : ProgramOrder) (lr lr' : LiveRange)
    (ebb : Ebb) (toi : Inst) (b : Bool)
    (hpo : POValid po) (hv : Valid po lr) (hin : InEbb po toi ebb)
    (hprec : PPInEbb po lr.def_begin ebb → po.idx lr.def_begin ≤ po.idx (.inst toi))
    (hx : lr.extend_in_ebb ebb toi po = some (b, lr')) :
    lr'.liveins.Pairwise (fun a c => po.idx (.inst a.iend) < po.idx (.ebb c.begin)) ∧
      ∀ d, PPInEbb po lr'.def_begin d → ∀ iv ∈ lr'.liveins,
        po.idx (.inst iv.iend) < po.idx (.ebb d) ∨
          po.idx lr'.def_end < po.idx (.ebb iv.begin) := by
  have hv' := (extend_preserves_valid hpo hv hin hprec hx).1
  exact ⟨hv'.sorted, hv'.ndef⟩

/-- Witness for C2 on the same concrete extension as C1. -/
theorem C2_witness : Valid poW lrW ∧ InEbb poW 2 2 ∧
    (lrW2.liveins.Pairwise
        (fun a c => poW.idx (.inst a.iend) < poW.idx (.ebb c.begin)) ∧
      ∀ d, PPInEbb poW lrW2.def_begin d → ∀ iv ∈ lrW2.liveins,
        poW.idx (.inst iv.iend) < poW.idx (.ebb d) ∨
          poW.idx lrW2.def_end < poW.idx (.ebb iv.begin)) :=
  ⟨lrW_valid, inEbbW 2,
    C2_extend_in_ebb_invariants poW lrW lrW2 2 2 true poW_valid lrW_valid (inEbbW 2)
      (fun hd => absurd (InEbb.unique poW_valid (inEbbW 0) hd) (by decide))
      rfl⟩

/-- C4: when `extend_in_ebb(block, to, order)` finds an existing live-in
interval covering `block`, it widens that interval's end to `to` (only if
greater, i.e. by `Interval::extend_to`), and then merges in and removes the
immediately following interval exactly when that interval's begin is the
fall-through successor of the *new* end (per the order's adjacency
predicate); the call returns `false`. -/
theorem C4_extend_in_ebb_covered (po : ProgramOrder) (lr lr' : LiveRange)
    (ebb : Ebb) (toi : Inst) (b : Bool) (iv : Interval)
    (hpo : POValid po) (hv : Valid po lr) (hin : InEbb po toi ebb)
    (hiv : iv ∈ lr.liveins) (hcov : coversEbb po iv ebb)
    (hx : lr.extend_in_ebb ebb toi po = some (b, lr')) :
    b = false ∧ ∃ pre post, lr.liveins = pre ++ iv :: post ∧
      ((∃ q post', post = q :: post' ∧
          po.is_ebb_gap (iv.extend_to toi po).iend q.begin = true ∧
          lr'.liveins = pre ++ Interval.mk iv.begin q.iend :: post') ∨
        ((∀ q ∈ post.head?, po.is_ebb_gap (iv.extend_to toi po).iend q.begin = false) ∧
          lr'.liveins = pre ++ (iv.extend_to toi po) :: post)) := by
  obtain ⟨pre, post, hdc⟩ := List.append_of_mem hiv
  have hfind := find_eq_ok hv.wf hv.sorted hdc hcov
  have hnc : ¬(po.cmp (.ebb ebb) lr.def_end ≠ .gt ∧
      po.cmp (.inst toi) lr.def_begin ≠ .lt) := fun hc =>
    covers_not_defblock hpo hv hiv hcov (defcond_defblock hpo hv hin hc.1 hc.2).1
  have hsort := List.pairwise_append.1 (hdc ▸ hv.sorted)
  have hsortiv := List.pairwise_cons.1 hsort.2.1
  have hadjiv := List.pairwise_cons.1 (List.pairwise_append.1 (hdc ▸ hv.adjFree)).2.1
  have hivwf := hv.wf iv hiv
  cases post with
  | nil =>
    rw [extend_ok_nomerge hnc hfind hdc rfl (fun q hq => by cases hq)] at hx
    cases hx
    refine ⟨rfl, pre, [], hdc, Or.inr ⟨?_, rfl⟩⟩
    intro q hq
    cases hq
  | cons q post' =>
    have hIq := hsortiv.1 q (List.mem_cons_self _ _)
    have hq1 : po.idx (.ebb ebb) < po.idx (.ebb q.begin) := by
      have := hcov.2
      omega
    have hTq := hin.2 q.begin hq1
    have hqwf := hv.wf q (hdc ▸ List.mem_append.2
      (Or.inr (List.mem_cons_of_mem _ (List.mem_cons_self _ _))))
    by_cases hgap : po.is_ebb_gap toi q.begin = true
    · -- merge case; the gap also holds of the widened end
      have hEle : po.idx (.inst iv.iend) ≤ po.idx (.inst toi) := by
        by_contra hlt2
        have h2 : po.idx (.inst toi) < po.idx (.inst iv.iend) := by omega
        have := hpo.gap_tight toi q.begin (.inst iv.iend) hgap h2
        omega
      have hgap' : po.is_ebb_gap (iv.extend_to toi po).iend q.begin = true := by
        unfold Interval.extend_to
        split
        · exact hgap
        · rename_i hngt
          have h1 := cmp_ne_gt.1 hngt
          have h2 : ProgramPoint.inst iv.iend = ProgramPoint.inst toi :=
            hpo.inj (Nat.le_antisymm hEle h1)
          have h3 : iv.iend = toi := by injection h2
          rw [h3]
          exact hgap
      have hlt : po.cmp (.inst q.iend) (.inst (iv.extend_to toi po).iend) = .gt := by
        apply cmp_eq_gt.2
        rcases extend_to_iend_cases iv toi po with h | h <;> rw [h] <;> omega
      rw [extend_ok_merge hnc hfind hdc rfl hgap hlt] at hx
      cases hx
      exact ⟨rfl, pre, q :: post', hdc, Or.inl ⟨q, post', rfl, hgap', rfl⟩⟩
    · -- no merge; the gap also fails of the widened end
      have hgapf := gap_eq_false hgap
      have hng : ∀ q' ∈ (q :: post').head?, po.is_ebb_gap toi q'.begin = false := by
        intro q' hq'
        have : q' = q := by simpa using hq'.symm
        exact this ▸ hgapf
      rw [extend_ok_nomerge hnc hfind hdc rfl hng] at hx
      cases hx
      refine ⟨rfl, pre, q :: post', hdc, Or.inr ⟨?_, rfl⟩⟩
      intro q' hq'
      have : q' = q := by simpa using hq'.symm
      subst this
      rcases extend_to_iend_cases iv toi po with h | h
      · rw [h]
        exact hadjiv.1 q' (List.mem_cons_self _ _)
      · rw [h]
        exact hgapf

/-- Witness for C4: re-extending a covered block leaves the interval in place
and returns `false`. -/
theorem C4_witness : Valid poW lrW2 ∧ InEbb poW 2 2 ∧
    Interval.mk 2 2 ∈ lrW2.liveins ∧ coversEbb poW (Interval.mk 2 2) 2 ∧
    (false = false ∧ ∃ pre post, lrW2.liveins = pre ++ Interval.mk 2 2 :: post ∧
      ((∃ q post', post = q :: post' ∧
          poW.is_ebb_gap ((Interval.mk 2 2).extend_to 2 poW).iend q.begin = true ∧
          lrW2.liveins = pre ++ Interval.mk (Interval.mk 2 2).begin q.iend :: post') ∨
        ((∀ q ∈ post.head?,
            poW.is_ebb_gap ((Interval.mk 2 2).extend_to 2 poW).iend q.begin = false) ∧
          lrW2.liveins = pre ++ ((Interval.mk 2 2).extend_to 2 poW) :: post))) :=
  ⟨lrW2_valid, inEbbW 2, by decide, ⟨by decide, by decide⟩,
    C4_extend_in_ebb_covered poW lrW2 lrW2 2 2 false (Interval.mk 2 2)
      poW_valid lrW2_valid (inEbbW 2) (by decide) ⟨by decide, by decide⟩ rfl⟩

theorem insertionResult_nil_nil {po : ProgramOrder} {ebb : Ebb} {toi : Inst} :
    insertionResult po ebb toi [] [] = [Interval.mk ebb toi] := rfl

theorem insertionResult_nil_cons {po : ProgramOrder} {ebb : Ebb} {toi : Inst}
    {q : Interval} {post' : List Interval} :
    insertionResult po ebb toi [] (q :: post') =
      if po.is_ebb_gap toi q.begin then Interval.mk ebb q.iend :: post'
      else Interval.mk ebb toi :: q :: post' := rfl

theorem insertionResult_concat_nil {po : ProgramOrder} {ebb : Ebb} {toi : Inst}
    {pre' : List Interval} {p : Interval} :
    insertionResult po ebb toi (pre' ++ [p]) [] =
      if po.is_ebb_gap p.iend ebb then pre' ++ [Interval.mk p.begin toi]
      else (pre' ++ [p]) ++ [Interval.mk ebb toi] := by
  unfold insertionResult
  rw [List.getLast?_concat]
  show (if po.is_ebb_gap p.iend ebb then
      (pre' ++ [p]).dropLast ++ [Interval.mk p.begin toi]
    else (pre' ++ [p]) ++ [Interval.mk ebb toi]) = _
  rw [List.dropLast_concat]

theorem insertionResult_concat_cons {po : ProgramOrder} {ebb : Ebb} {toi : Inst}
    {pre' : List Interval} {p q : Interval} {post' : List Interval} :
    insertionResult po ebb toi (pre' ++ [p]) (q :: post') =
      if po.is_ebb_gap p.iend ebb then
        if po.is_ebb_gap toi q.begin then pre' ++ Interval.mk p.begin q.iend :: post'
        else pre' ++ Interval.mk p.begin toi :: q :: post'
      else if po.is_ebb_gap toi q.begin then
        (pre' ++ [p]) ++ Interval.mk ebb q.iend :: post'
      else (pre' ++ [p]) ++ Interval.mk ebb toi :: q :: post' := by
  unfold insertionResult
  rw [List.getLast?_concat]
  show (if po.is_ebb_gap p.iend ebb then
      if po.is_ebb_gap toi q.begin then
        (pre' ++ [p]).dropLast ++ Interval.mk p.begin q.iend :: post'
      else (pre' ++ [p]).dropLast ++ Interval.mk p.begin toi :: q :: post'
    else if po.is_ebb_gap toi q.begin then
      (pre' ++ [p]) ++ Interval.mk ebb q.iend :: post'
    else (pre' ++ [p]) ++ Interval.mk ebb toi :: q :: post') = _
  rw [List.dropLast_concat]

/-- C3: when `extend_in_ebb(block, to, order)` is called for a block not
covered by the def interval or any existing live-in interval, the resulting
`liveins` are determined by fall-through adjacency at the insertion point:
merged into the predecessor only when the predecessor's end is adjacent to
`block`; merged into the successor only (rewriting its `begin` back to
`block`) when `to` is adjacent to the successor's begin; spliced through both
when both are adjacent; and a fresh singleton `{begin := block, end := to}`
inserted when neither side is adjacent. -/
theorem C3_extend_in_ebb_uncovered (po : ProgramOrder) (lr lr' : LiveRange)
    (ebb : Ebb) (toi : Inst) (b : Bool)
    (hpo : POValid po) (hv : Valid po lr) (hin : InEbb po toi ebb)
    (hndb : ¬ PPInEbb po lr.def_begin ebb)
    (hncov : ∀ iv ∈ lr.liveins, ¬ coversEbb po iv ebb)
    (hx : lr.extend_in_ebb ebb toi po = some (b, lr')) :
    b = true ∧ ∃ pre post, lr.liveins = pre ++ post ∧
      (∀ a ∈ pre, po.idx (.inst a.iend) < po.idx (.ebb ebb)) ∧
      (∀ a ∈ post, po.idx (.ebb ebb) < po.idx (.ebb a.begin)) ∧
      lr'.liveins = insertionResult po ebb toi pre post := by
  have hnc : ¬(po.cmp (.ebb ebb) lr.def_end ≠ .gt ∧
      po.cmp (.inst toi) lr.def_begin ≠ .lt) := fun hc =>
    hndb (defcond_defblock hpo hv hin hc.1 hc.2).1
  cases hfind : lr.find_ebb_interval ebb po with
  | ok n =>
    obtain ⟨pre, iv, post, hdc, hlen, hcov⟩ := find_ok_decomp hv.wf hfind
    exact absurd hcov
      (hncov iv (hdc ▸ List.mem_append.2 (Or.inr (List.mem_cons_self _ _))))
  | error n =>
    obtain ⟨pre, post, hdc, hlen, hpreE, hpostB⟩ :=
      find_error_decomp hpo hv.wf hv.sorted hfind
    have hHT := hin.1
    rcases List.eq_nil_or_concat pre with rfl | ⟨pre', p, rfl⟩
    · -- empty prefix
      have hn0 : n = 0 := by simpa using hlen.symm
      subst hn0
      have hLpost : lr.liveins = post := by simpa using hdc
      cases post with
      | nil =>
        rw [extend_err_insert_nil hnc hfind
          (fun q' hq' => by rw [hLpost] at hq'; cases hq')] at hx
        cases hx
        refine ⟨rfl, [], [], hdc, by simp, by simp, ?_⟩
        rw [hLpost, insertionResult_nil_nil]
      | cons q post' =>
        by_cases hgq : po.is_ebb_gap toi q.begin = true
        · rw [extend_err_next_nil hnc hfind (by simpa using hdc) hgq] at hx
          cases hx
          refine ⟨rfl, [], q :: post', hdc, by simp, hpostB, ?_⟩
          rw [insertionResult_nil_cons, hgq, if_pos rfl]
        · have hgq' := gap_eq_false hgq
          rw [extend_err_insert_nil hnc hfind (fun q' hq' => by
            rw [hLpost] at hq'
            have : q' = q := by simpa using hq'.symm
            exact this ▸ hgq')] at hx
          cases hx
          refine ⟨rfl, [], q :: post', hdc, by simp, hpostB, ?_⟩
          rw [hLpost, insertionResult_nil_cons, hgq', if_neg Bool.false_ne_true]
    · -- prefix ending in `p`
      rw [List.concat_eq_append] at hdc hlen hpreE
      have hlen' : pre'.length + 1 = n := by simpa using hlen
      have hdcp : lr.liveins = pre' ++ p :: post := by
        rw [hdc, List.append_assoc]; rfl
      have hpE := hpreE p (by simp)
      by_cases hgp : po.is_ebb_gap p.iend ebb = true
      · have hplt : po.cmp (.inst toi) (.inst p.iend) = .gt := cmp_eq_gt.2 (by omega)
        cases post with
        | nil =>
          rw [extend_err_prev hnc hfind hdcp hlen' hgp (fun q hq => by cases hq)
            hplt] at hx
          cases hx
          refine ⟨rfl, pre' ++ [p], [], hdc, hpreE, by simp, ?_⟩
          rw [insertionResult_concat_nil, hgp, if_pos rfl]
        | cons q post' =>
          have hqH := hpostB q (List.mem_cons_self _ _)
          have hqwf := hv.wf q (hdc ▸ List.mem_append.2
            (Or.inr (List.mem_cons_self _ _)))
          by_cases hgq : po.is_ebb_gap toi q.begin = true
          · have hqlt : po.cmp (.inst q.iend) (.inst p.iend) = .gt :=
              cmp_eq_gt.2 (by omega)
            rw [extend_err_both hnc hfind hdcp hlen' hgp hgq hqlt] at hx
            cases hx
            refine ⟨rfl, pre' ++ [p], q :: post', hdc, hpreE, hpostB, ?_⟩
            rw [insertionResult_concat_cons, hgp, if_pos rfl, hgq, if_pos rfl]
          · have hgq' := gap_eq_false hgq
            rw [extend_err_prev hnc hfind hdcp hlen' hgp (fun q' hq' => by
              have : q' = q := by simpa using hq'.symm
              exact this ▸ hgq') hplt] at hx
            cases hx
            refine ⟨rfl, pre' ++ [p], q :: post', hdc, hpreE, hpostB, ?_⟩
            rw [insertionResult_concat_cons, hgp, if_pos rfl, hgq',
              if_neg Bool.false_ne_true]
      · have hgp' := gap_eq_false hgp
        cases post with
        | nil =>
          rw [extend_err_insert_concat hnc hfind hdcp hlen' hgp'
            (fun q hq => by cases hq)] at hx
          cases hx
          refine ⟨rfl, pre' ++ [p], [], hdc, hpreE, by simp, ?_⟩
          rw [insertionResult_concat_nil, hgp', if_neg Bool.false_ne_true]
          simp
        | cons q post' =>
          by_cases hgq : po.is_ebb_gap toi q.begin = true
          · rw [extend_err_next_concat hnc hfind hdcp hlen' hgp' hgq] at hx
            cases hx
            refine ⟨rfl, pre' ++ [p], q :: post', hdc, hpreE, hpostB, ?_⟩
            rw [insertionResult_concat_cons, hgp', if_neg Bool.false_ne_true,
              hgq, if_pos rfl]
            simp
          · have hgq' := gap_eq_false hgq
            rw [extend_err_insert_concat hnc hfind hdcp hlen' hgp' (fun q' hq' => by
              have : q' = q := by simpa using hq'.symm
              exact this ▸ hgq')] at hx
            cases hx
            refine ⟨rfl, pre' ++ [p], q :: post', hdc, hpreE, hpostB, ?_⟩
            rw [insertionResult_concat_cons, hgp', if_neg Bool.false_ne_true,
              hgq', if_neg Bool.false_ne_true]
            simp

/-- Witness for C3: the fresh-singleton case at a concrete uncovered block. -/
theorem C3_witness : Valid poW lrW ∧ InEbb poW 2 2 ∧
    (true = true ∧ ∃ pre post, lrW.liveins = pre ++ post ∧
      (∀ a ∈ pre, poW.idx (.inst a.iend) < poW.idx (.ebb 2)) ∧
      (∀ a ∈ post, poW.idx (.ebb 2) < poW.idx (.ebb a.begin)) ∧
      lrW2.liveins = insertionResult poW 2 2 pre post) :=
  ⟨lrW_valid, inEbbW 2,
    C3_extend_in_ebb_uncovered poW lrW lrW2 2 2 true poW_valid lrW_valid (inEbbW 2)
      (fun hd => absurd (InEbb.unique poW_valid (inEbbW 0) hd) (by decide))
      (fun iv hiv => absurd hiv (by simp [lrW, LiveRange.new]))
      rfl⟩

theorem lrC7_valid : Valid poW lrC7 := by
  constructor
  · exact ⟨0, rfl, inEbbW 0⟩
  · decide
  · intro iv hiv
    exact absurd hiv (by simp [lrC7])
  · simp [lrC7]
  · simp [lrC7]
  · intro d hd iv hiv
    exact absurd hiv (by simp [lrC7])

theorem coversPt_mono_shape (po : ProgramOrder) (lr lr' : LiveRange)
    {pt : ProgramPoint}
    (hdb : lr'.def_begin = lr.def_begin)
    (hde : po.idx lr.def_end ≤ po.idx lr'.def_end)
    (hL : ∀ iv ∈ lr.liveins, ∃ iv' ∈ lr'.liveins,
      po.idx (.ebb iv'.begin) ≤ po.idx (.ebb iv.begin) ∧
      po.idx (.inst iv.iend) ≤ po.idx (.inst iv'.iend))
    (hc : coversPt po lr pt) : coversPt po lr' pt := by
  rcases hc with ⟨h1, h2⟩ | ⟨iv, hiv, h1, h2⟩
  · exact Or.inl ⟨by rw [hdb]; exact h1, Nat.le_trans h2 hde⟩
  · obtain ⟨iv', hiv', hb, he⟩ := hL iv hiv
    exact Or.inr ⟨iv', hiv', Nat.le_trans hb h1, Nat.le_trans h2 he⟩

/-- C7 counterexample: `move_def_locally` can shrink the covered set.  The
range `lrC7` is defined at the header of block 0 and covers that header; after
`move_def_locally(inst 0)` — a legal call, since instruction 0 lies in the same
block 0 — the header is no longer covered. -/
theorem C7_counterexample :
    Valid poW lrC7 ∧ PPInEbb poW lrC7.def_begin 0 ∧ PPInEbb poW (.inst 0) 0 ∧
    coversPt poW lrC7 (.ebb 0) ∧
    ¬ coversPt poW (lrC7.move_def_locally (.inst 0)) (.ebb 0) := by
  refine ⟨lrC7_valid, rfl, inEbbW 0, Or.inl ⟨by decide, by decide⟩, ?_⟩
  intro h
  rcases h with ⟨h1, h2⟩ | ⟨iv, hiv, h⟩
  · exact absurd h1 (by decide)
  · exact absurd hiv (by simp [lrC7, LiveRange.move_def_locally])

/-- C7 (amended): `extend_in_ebb` never shrinks a live range — every program
point covered before a successful call is still covered after it.
(`move_def_locally` is excluded: it can shrink the def interval at its start,
see the counterexample.) -/
theorem C7_extend_monotone (po : ProgramOrder) (lr lr' : LiveRange)
    (ebb : Ebb) (toi : Inst) (b : Bool)
    (hpo : POValid po) (hv : Valid po lr) (hin : InEbb po toi ebb)
    (hx : lr.extend_in_ebb ebb toi po = some (b, lr')) :
    ∀ pt, coversPt po lr pt → coversPt po lr' pt := by
  intro pt hc
  have hHT := hin.1
  by_cases hcnd : po.cmp (.ebb ebb) lr.def_end ≠ .gt ∧
      po.cmp (.inst toi) lr.def_begin ≠ .lt
  · -- def-interval branch
    by_cases heq : ProgramPoint.inst toi = lr.def_begin
    · rw [extend_def_panic hcnd heq] at hx
      exact absurd hx (by simp)
    · by_cases hgt : po.cmp (.inst toi) lr.def_end = .gt
      · rw [extend_def_widen hcnd heq hgt] at hx
        cases hx
        refine coversPt_mono_shape po lr _ rfl (Nat.le_of_lt (cmp_eq_gt.1 hgt)) ?_ hc
        intro a ha
        exact ⟨a, ha, Nat.le_refl _, Nat.le_refl _⟩
      · rw [extend_def_nowiden hcnd heq hgt] at hx
        cases hx
        exact hc
  · cases hfind : lr.find_ebb_interval ebb po with
    | ok n =>
      -- covered branch: the covering interval is widened, possibly merged
      obtain ⟨pre, iv, post, hdc, hlen, hcov⟩ := find_ok_decomp hv.wf hfind
      have hivwf := hv.wf iv
        (hdc ▸ List.mem_append.2 (Or.inr (List.mem_cons_self _ _)))
      cases post with
      | nil =>
        rw [extend_ok_nomerge hcnd hfind hdc hlen (fun q hq => by cases hq)] at hx
        cases hx
        refine coversPt_mono_shape po lr _ rfl (Nat.le_refl _) ?_ hc
        intro a ha
        rw [hdc] at ha
        rcases List.mem_append.1 ha with h | h
        · exact ⟨a, List.mem_append.2 (Or.inl h), Nat.le_refl _, Nat.le_refl _⟩
        · have haiv : a = iv := by simpa using h
          subst haiv
          refine ⟨a.extend_to toi po,
            List.mem_append.2 (Or.inr (List.mem_cons_self _ _)), ?_,
            extend_to_iend_ge _ _ _⟩
          rw [extend_to_begin]
      | cons q post' =>
        have hsortl := List.pairwise_append.1 (hdc ▸ hv.sorted)
        have hsortiv := List.pairwise_cons.1 hsortl.2.1
        have hIq := hsortiv.1 q (List.mem_cons_self _ _)
        have hq1 : po.idx (.ebb ebb) < po.idx (.ebb q.begin) := by
          have := hcov.2
          omega
        have hTq := hin.2 q.begin hq1
        have hqwf := hv.wf q (hdc ▸ List.mem_append.2
          (Or.inr (List.mem_cons_of_mem _ (List.mem_cons_self _ _))))
        by_cases hgap : po.is_ebb_gap toi q.begin = true
        · have hlt : po.cmp (.inst q.iend) (.inst (iv.extend_to toi po).iend) = .gt := by
            apply cmp_eq_gt.2
            rcases extend_to_iend_cases iv toi po with h | h <;> rw [h] <;> omega
          rw [extend_ok_merge hcnd hfind hdc hlen hgap hlt] at hx
          cases hx
          refine coversPt_mono_shape po lr _ rfl (Nat.le_refl _) ?_ hc
          intro a ha
          rw [hdc] at ha
          rcases List.mem_append.1 ha with h | h
          · exact ⟨a, List.mem_append.2 (Or.inl h), Nat.le_refl _, Nat.le_refl _⟩
          rcases List.mem_cons.1 h with rfl | h
          · refine ⟨Interval.mk a.begin q.iend,
              List.mem_append.2 (Or.inr (List.mem_cons_self _ _)),
              Nat.le_refl _, ?_⟩
            show po.idx (.inst a.iend) ≤ po.idx (.inst q.iend)
            omega
          rcases List.mem_cons.1 h with rfl | h
          · refine ⟨Interval.mk iv.begin a.iend,
              List.mem_append.2 (Or.inr (List.mem_cons_self _ _)), ?_,
              Nat.le_refl _⟩
            show po.idx (.ebb iv.begin) ≤ po.idx (.ebb a.begin)
            omega
          · exact ⟨a, List.mem_append.2 (Or.inr (List.mem_cons_of_mem _ h)),
              Nat.le_refl _, Nat.le_refl _⟩
        · have hgapf := gap_eq_false hgap
          have hng : ∀ q' ∈ (q :: post').head?, po.is_ebb_gap toi q'.begin = false := by
            intro q' hq'
            have hqq : q' = q := by simpa using hq'.symm
            exact hqq ▸ hgapf
          rw [extend_ok_nomerge hcnd hfind hdc hlen hng] at hx
          cases hx
          refine coversPt_mono_shape po lr _ rfl (Nat.le_refl _) ?_ hc
          intro a ha
          rw [hdc] at ha
          rcases List.mem_append.1 ha with h | h
          · exact ⟨a, List.mem_append.2 (Or.inl h), Nat.le_refl _, Nat.le_refl _⟩
          rcases List.mem_cons.1 h with rfl | h
          · refine ⟨a.extend_to toi po,
              List.mem_append.2 (Or.inr (List.mem_cons_self _ _)), ?_,
              extend_to_iend_ge _ _ _⟩
            rw [extend_to_begin]
          · exact ⟨a, List.mem_append.2 (Or.inr (List.mem_cons_of_mem _ h)),
              Nat.le_refl _, Nat.le_refl _⟩
    | error n =>
      -- uncovered branch: insertion with optional coalescing
      obtain ⟨pre, post, hdc, hlen, hpreE, hpostB⟩ :=
        find_error_decomp hpo hv.wf hv.sorted hfind
      rcases List.eq_nil_or_concat pre with rfl | ⟨pre', p, rfl⟩
      · have hn0 : n = 0 := by simpa using hlen.symm
        subst hn0
        have hLpost : lr.liveins = post := by simpa using hdc
        cases post with
        | nil =>
          rw [extend_err_insert_nil hcnd hfind
            (fun q' hq' => by rw [hLpost] at hq'; cases hq')] at hx
          cases hx
          refine coversPt_mono_shape po lr _ rfl (Nat.le_refl _) ?_ hc
          intro a ha
          exact ⟨a, List.mem_cons_of_mem _ ha, Nat.le_refl _, Nat.le_refl _⟩
        | cons q post' =>
          have hqH := hpostB q (List.mem_cons_self _ _)
          by_cases hgq : po.is_ebb_gap toi q.begin = true
          · have hgl := hpo.gap_lt toi q.begin hgq
            rw [extend_err_next_nil hcnd hfind (by simpa using hdc) hgq] at hx
            cases hx
            refine coversPt_mono_shape po lr _ rfl (Nat.le_refl _) ?_ hc
            intro a ha
            rw [hLpost] at ha
            rcases List.mem_cons.1 ha with rfl | h
            · refine ⟨Interval.mk ebb a.iend, List.mem_cons_self _ _, ?_,
                Nat.le_refl _⟩
              show po.idx (.ebb ebb) ≤ po.idx (.ebb a.begin)
              omega
            · exact ⟨a, List.mem_cons_of_mem _ h, Nat.le_refl _, Nat.le_refl _⟩
          · have hgq' := gap_eq_false hgq
            rw [extend_err_insert_nil hcnd hfind (fun q' hq' => by
              rw [hLpost] at hq'
              have hqq : q' = q := by simpa using hq'.symm
              exact hqq ▸ hgq')] at hx
            cases hx
            refine coversPt_mono_shape po lr _ rfl (Nat.le_refl _) ?_ hc
            intro a ha
            exact ⟨a, List.mem_cons_of_mem _ ha, Nat.le_refl _, Nat.le_refl _⟩
      · rw [List.concat_eq_append] at hdc hlen hpreE
        have hlen' : pre'.length + 1 = n := by simpa using hlen
        have hdcp : lr.liveins = pre' ++ p :: post := by
          rw [hdc, List.append_assoc]; rfl
        have hpE := hpreE p (by simp)
        have hpwf := hv.wf p (hdcp ▸ List.mem_append.2
          (Or.inr (List.mem_cons_self _ _)))
        by_cases hgp : po.is_ebb_gap p.iend ebb = true
        · have hplt : po.cmp (.inst toi) (.inst p.iend) = .gt :=
            cmp_eq_gt.2 (by omega)
          cases post with
          | nil =>
            rw [extend_err_prev hcnd hfind hdcp hlen' hgp
              (fun q hq => by cases hq) hplt] at hx
            cases hx
            refine coversPt_mono_shape po lr _ rfl (Nat.le_refl _) ?_ hc
            intro a ha
            rw [hdcp] at ha
            rcases List.mem_append.1 ha with h | h
            · exact ⟨a, List.mem_append.2 (Or.inl h), Nat.le_refl _, Nat.le_refl _⟩
            rcases List.mem_cons.1 h with rfl | h
            · exact ⟨Interval.mk a.begin toi,
                List.mem_append.2 (Or.inr (List.mem_cons_self _ _)),
                Nat.le_refl _, Nat.le_of_lt (cmp_eq_gt.1 hplt)⟩
            · cases h
          | cons q post' =>
            have hqH := hpostB q (List.mem_cons_self _ _)
            have hqwf := hv.wf q (hdcp ▸ List.mem_append.2
              (Or.inr (List.mem_cons_of_mem _ (List.mem_cons_self _ _))))
            by_cases hgq : po.is_ebb_gap toi q.begin = true
            · have hqlt : po.cmp (.inst q.iend) (.inst p.iend) = .gt :=
                cmp_eq_gt.2 (by omega)
              rw [extend_err_both hcnd hfind hdcp hlen' hgp hgq hqlt] at hx
              cases hx
              refine coversPt_mono_shape po lr _ rfl (Nat.le_refl _) ?_ hc
              intro a ha
              rw [hdcp] at ha
              rcases List.mem_append.1 ha with h | h
              · exact ⟨a, List.mem_append.2 (Or.inl h), Nat.le_refl _, Nat.le_refl _⟩
              rcases List.mem_cons.1 h with rfl | h
              · refine ⟨Interval.mk a.begin q.iend,
                  List.mem_append.2 (Or.inr (List.mem_cons_self _ _)),
                  Nat.le_refl _, ?_⟩
                show po.idx (.inst a.iend) ≤ po.idx (.inst q.iend)
                exact Nat.le_of_lt (cmp_eq_gt.1 hqlt)
              rcases List.mem_cons.1 h with rfl | h
              · refine ⟨Interval.mk p.begin a.iend,
                  List.mem_append.2 (Or.inr (List.mem_cons_self _ _)), ?_,
                  Nat.le_refl _⟩
                show po.idx (.ebb p.begin) ≤ po.idx (.ebb a.begin)
                omega
              · exact ⟨a, List.mem_append.2 (Or.inr (List.mem_cons_of_mem _ h)),
                  Nat.le_refl _, Nat.le_refl _⟩
            · have hgq' := gap_eq_false hgq
              rw [extend_err_prev hcnd hfind hdcp hlen' hgp (fun q' hq' => by
                have hqq : q' = q := by simpa using hq'.symm
                exact hqq ▸ hgq') hplt] at hx
              cases hx
              refine coversPt_mono_shape po lr _ rfl (Nat.le_refl _) ?_ hc
              intro a ha
              rw [hdcp] at ha
              rcases List.mem_append.1 ha with h | h
              · exact ⟨a, List.mem_append.2 (Or.inl h), Nat.le_refl _, Nat.le_refl _⟩
              rcases List.mem_cons.1 h with rfl | h
              · exact ⟨Interval.mk a.begin toi,
                  List.mem_append.2 (Or.inr (List.mem_cons_self _ _)),
                  Nat.le_refl _, Nat.le_of_lt (cmp_eq_gt.1 hplt)⟩
              · exact ⟨a, List.mem_append.2 (Or.inr (List.mem_cons_of_mem _ h)),
                  Nat.le_refl _, Nat.le_refl _⟩
        · have hgp' := gap_eq_false hgp
          cases post with
          | nil =>
            rw [extend_err_insert_concat hcnd hfind hdcp hlen' hgp'
              (fun q hq => by cases hq)] at hx
            cases hx
            refine coversPt_mono_shape po lr _ rfl (Nat.le_refl _) ?_ hc
            intro a ha
            rw [hdcp] at ha
            rcases List.mem_append.1 ha with h | h
            · exact ⟨a, List.mem_append.2 (Or.inl h), Nat.le_refl _, Nat.le_refl _⟩
            rcases List.mem_cons.1 h with rfl | h
            · exact ⟨a, List.mem_append.2 (Or.inr (List.mem_cons_self _ _)),
                Nat.le_refl _, Nat.le_refl _⟩
            · cases h
          | cons q post' =>
            have hqH := hpostB q (List.mem_cons_self _ _)
            by_cases hgq : po.is_ebb_gap toi q.begin = true
            · rw [extend_err_next_concat hcnd hfind hdcp hlen' hgp' hgq] at hx
              cases hx
              refine coversPt_mono_shape po lr _ rfl (Nat.le_refl _) ?_ hc
              intro a ha
              rw [hdcp] at ha
              rcases List.mem_append.1 ha with h | h
              · exact ⟨a, List.mem_append.2 (Or.inl h), Nat.le_refl _, Nat.le_refl _⟩
              rcases List.mem_cons.1 h with rfl | h
              · exact ⟨a, List.mem_append.2 (Or.inr (List.mem_cons_self _ _)),
                  Nat.le_refl _, Nat.le_refl _⟩
              rcases List.mem_cons.1 h with rfl | h
              · refine ⟨Interval.mk ebb a.iend,
                  List.mem_append.2 (Or.inr (List.mem_cons_of_mem _
                    (List.mem_cons_self _ _))), ?_, Nat.le_refl _⟩
                show po.idx (.ebb ebb) ≤ po.idx (.ebb a.begin)
                omega
              · exact ⟨a, List.mem_append.2 (Or.inr (List.mem_cons_of_mem _
                  (List.mem_cons_of_mem _ h))), Nat.le_refl _, Nat.le_refl _⟩
            · have hgq' := gap_eq_false hgq
              rw [extend_err_insert_concat hcnd hfind hdcp hlen' hgp'
                (fun q' hq' => by
                  have hqq : q' = q := by simpa using hq'.symm
                  exact hqq ▸ hgq')] at hx
              cases hx
              refine coversPt_mono_shape po lr _ rfl (Nat.le_refl _) ?_ hc
              intro a ha
              rw [hdcp] at ha
              rcases List.mem_append.1 ha with h | h
              · exact ⟨a, List.mem_append.2 (Or.inl h), Nat.le_refl _, Nat.le_refl _⟩
              rcases List.mem_cons.1 h with rfl | h
              · exact ⟨a, List.mem_append.2 (Or.inr (List.mem_cons_self _ _)),
                  Nat.le_refl _, Nat.le_refl _⟩
              · exact ⟨a, List.mem_append.2 (Or.inr (List.mem_cons_of_mem _
                  (List.mem_cons_of_mem _ h))), Nat.le_refl _, Nat.le_refl _⟩

/-- Witness for C7: a concrete extension keeps the def point covered. -/
theorem C7_witness : Valid poW lrW ∧ InEbb poW 2 2 ∧
    coversPt poW lrW (.inst 0) ∧ coversPt poW lrW2 (.inst 0) :=
  ⟨lrW_valid, inEbbW 2, Or.inl ⟨by decide, by decide⟩,
    C7_extend_monotone poW lrW lrW2 2 2 true poW_valid lrW_valid (inEbbW 2) rfl
      (.inst 0) (Or.inl ⟨by decide, by decide⟩)⟩

theorem extend_to_iend_ge_toi (iv : Interval) (toi : Inst) (po : ProgramOrder) :
    po.idx (.inst toi) ≤ po.idx (.inst (iv.extend_to toi po).iend) := by
  unfold Interval.extend_to
  split
  · exact Nat.le_refl _
  · rename_i h
    exact cmp_ne_gt.1 h

/-- A second `extend_in_ebb` call on a state whose `liveins` already hold an
interval covering `ebb` and reaching at least to `toi` changes nothing and
returns `false`. -/
theorem extend_snd_nomod (po : ProgramOrder) (lr2 : LiveRange) (ebb : Ebb)
    (toi : Inst) (PRE POST : List Interval) (NEW : Interval)
    (hpo : POValid po) (hv2 : Valid po lr2)
    (hnc : ¬(po.cmp (.ebb ebb) lr2.def_end ≠ .gt ∧
      po.cmp (.inst toi) lr2.def_begin ≠ .lt))
    (hdc : lr2.liveins = PRE ++ NEW :: POST)
    (hcov : coversEbb po NEW ebb)
    (hle : po.idx (.inst toi) ≤ po.idx (.inst NEW.iend)) :
    lr2.extend_in_ebb ebb toi po = some (false, lr2) := by
  have hfind := find_eq_ok hv2.wf hv2.sorted hdc hcov
  have hnoop : NEW.extend_to toi po = NEW :=
    extend_to_noop (fun h => by have := cmp_eq_gt.1 h; omega)
  have hng : ∀ r ∈ POST.head?, po.is_ebb_gap toi r.begin = false := by
    intro r hr
    have hrmem : r ∈ POST := List.mem_of_mem_head? hr
    have hs := (List.pairwise_cons.1
      (List.pairwise_append.1 (hdc ▸ hv2.sorted)).2.1).1 r hrmem
    have hadj := (List.pairwise_cons.1
      (List.pairwise_append.1 (hdc ▸ hv2.adjFree)).2.1).1 r hrmem
    rcases Nat.lt_or_ge (po.idx (.inst toi)) (po.idx (.inst NEW.iend)) with hlt | hge
    · exact gap_false_of_between hpo (.inst NEW.iend) hlt hs
    · have heq : ProgramPoint.inst toi = ProgramPoint.inst NEW.iend :=
        hpo.inj (Nat.le_antisymm hle hge)
      have heq' : toi = NEW.iend := by injection heq
      rw [heq']
      exact hadj
  have hsh := extend_ok_nomerge hnc hfind hdc rfl hng
  rw [hnoop, ← hdc] at hsh
  exact hsh

/-- C6: `extend_in_ebb` is idempotent — after a successful call, repeating the
call with the same arguments returns `false` and leaves the range unchanged. -/
theorem C6_extend_in_ebb_idempotent (po : ProgramOrder) (lr lr' : LiveRange)
    (ebb : Ebb) (toi : Inst) (b : Bool)
    (hpo : POValid po) (hv : Valid po lr) (hin : InEbb po toi ebb)
    (hprec : PPInEbb po lr.def_begin ebb → po.idx lr.def_begin ≤ po.idx (.inst toi))
    (hx : lr.extend_in_ebb ebb toi po = some (b, lr')) :
    lr'.extend_in_ebb ebb toi po = some (false, lr') := by
  have hHT := hin.1
  have hv2 := (extend_preserves_valid hpo hv hin hprec hx).1
  by_cases hcnd : po.cmp (.ebb ebb) lr.def_end ≠ .gt ∧
      po.cmp (.inst toi) lr.def_begin ≠ .lt
  · -- def-interval branch
    by_cases heq : ProgramPoint.inst toi = lr.def_begin
    · rw [extend_def_panic hcnd heq] at hx
      exact absurd hx (by simp)
    · by_cases hgt : po.cmp (.inst toi) lr.def_end = .gt
      · rw [extend_def_widen hcnd heq hgt] at hx
        cases hx
        exact extend_def_nowiden ⟨cmp_ne_gt.2 (Nat.le_of_lt hHT), hcnd.2⟩ heq
          (cmp_ne_gt.2 (Nat.le_refl _))
      · rw [extend_def_nowiden hcnd heq hgt] at hx
        cases hx
        exact extend_def_nowiden hcnd heq hgt
  · cases hfind : lr.find_ebb_interval ebb po with
    | ok n =>
      obtain ⟨pre, iv, post, hdc, hlen, hcov⟩ := find_ok_decomp hv.wf hfind
      cases post with
      | nil =>
        rw [extend_ok_nomerge hcnd hfind hdc hlen (fun q hq => by cases hq)] at hx
        cases hx
        exact extend_snd_nomod po _ ebb toi pre [] (iv.extend_to toi po) hpo hv2 hcnd
          rfl ⟨by rw [extend_to_begin]; exact hcov.1,
            Nat.lt_of_lt_of_le hcov.2 (extend_to_iend_ge iv toi po)⟩
          (extend_to_iend_ge_toi iv toi po)
      | cons q post' =>
        have hsortl := List.pairwise_append.1 (hdc ▸ hv.sorted)
        have hsortiv := List.pairwise_cons.1 hsortl.2.1
        have hIq := hsortiv.1 q (List.mem_cons_self _ _)
        have hq1 : po.idx (.ebb ebb) < po.idx (.ebb q.begin) := by
          have := hcov.2
          omega
        have hTq := hin.2 q.begin hq1
        have hqwf := hv.wf q (hdc ▸ List.mem_append.2
          (Or.inr (List.mem_cons_of_mem _ (List.mem_cons_self _ _))))
        by_cases hgap : po.is_ebb_gap toi q.begin = true
        · have hlt : po.cmp (.inst q.iend) (.inst (iv.extend_to toi po).iend) = .gt := by
            apply cmp_eq_gt.2
            rcases extend_to_iend_cases iv toi po with h | h <;> rw [h] <;> omega
          rw [extend_ok_merge hcnd hfind hdc hlen hgap hlt] at hx
          cases hx
          refine extend_snd_nomod po _ ebb toi pre post' (Interval.mk iv.begin q.iend)
            hpo hv2 hcnd rfl ⟨hcov.1, ?_⟩ ?_
          · show po.idx (.ebb ebb) < po.idx (.inst q.iend)
            omega
          · show po.idx (.inst toi) ≤ po.idx (.inst q.iend)
            omega
        · have hgapf := gap_eq_false hgap
          have hng : ∀ q' ∈ (q :: post').head?, po.is_ebb_gap toi q'.begin = false := by
            intro q' hq'
            have hqq : q' = q := by simpa using hq'.symm
            exact hqq ▸ hgapf
          rw [extend_ok_nomerge hcnd hfind hdc hlen hng] at hx
          cases hx
          exact extend_snd_nomod po _ ebb toi pre (q :: post') (iv.extend_to toi po)
            hpo hv2 hcnd rfl ⟨by rw [extend_to_begin]; exact hcov.1,
              Nat.lt_of_lt_of_le hcov.2 (extend_to_iend_ge iv toi po)⟩
            (extend_to_iend_ge_toi iv toi po)
    | error n =>
      obtain ⟨pre, post, hdc, hlen, hpreE, hpostB⟩ :=
        find_error_decomp hpo hv.wf hv.sorted hfind
      rcases List.eq_nil_or_concat pre with rfl | ⟨pre', p, rfl⟩
      · have hn0 : n = 0 := by simpa using hlen.symm
        subst hn0
        have hLpost : lr.liveins = post := by simpa using hdc
        cases post with
        | nil =>
          rw [extend_err_insert_nil hcnd hfind
            (fun q' hq' => by rw [hLpost] at hq'; cases hq')] at hx
          cases hx
          exact extend_snd_nomod po _ ebb toi [] lr.liveins (Interval.mk ebb toi)
            hpo hv2 hcnd rfl ⟨Nat.le_refl _, hHT⟩ (Nat.le_refl _)
        | cons q post' =>
          have hqH := hpostB q (List.mem_cons_self _ _)
          have hqwf := hv.wf q (hLpost ▸ List.mem_cons_self _ _)
          by_cases hgq : po.is_ebb_gap toi q.begin = true
          · have hgl := hpo.gap_lt toi q.begin hgq
            rw [extend_err_next_nil hcnd hfind (by simpa using hdc) hgq] at hx
            cases hx
            refine extend_snd_nomod po _ ebb toi [] post' (Interval.mk ebb q.iend)
              hpo hv2 hcnd rfl ⟨Nat.le_refl _, ?_⟩ ?_
            · show po.idx (.ebb ebb) < po.idx (.inst q.iend)
              omega
            · show po.idx (.inst toi) ≤ po.idx (.inst q.iend)
              omega
          · have hgq' := gap_eq_false hgq
            rw [extend_err_insert_nil hcnd hfind (fun q' hq' => by
              rw [hLpost] at hq'
              have hqq : q' = q := by simpa using hq'.symm
              exact hqq ▸ hgq')] at hx
            cases hx
            exact extend_snd_nomod po _ ebb toi [] lr.liveins (Interval.mk ebb toi)
              hpo hv2 hcnd rfl ⟨Nat.le_refl _, hHT⟩ (Nat.le_refl _)
      · rw [List.concat_eq_append] at hdc hlen hpreE
        have hlen' : pre'.length + 1 = n := by simpa using hlen
        have hdcp : lr.liveins = pre' ++ p :: post := by
          rw [hdc, List.append_assoc]; rfl
        have hpE := hpreE p (by simp)
        have hpwf := hv.wf p (hdcp ▸ List.mem_append.2
          (Or.inr (List.mem_cons_self _ _)))
        by_cases hgp : po.is_ebb_gap p.iend ebb = true
        · have hplt : po.cmp (.inst toi) (.inst p.iend) = .gt :=
            cmp_eq_gt.2 (by omega)
          cases post with
          | nil =>
            rw [extend_err_prev hcnd hfind hdcp hlen' hgp
              (fun q hq => by cases hq) hplt] at hx
            cases hx
            refine extend_snd_nomod po _ ebb toi pre' [] (Interval.mk p.begin toi)
              hpo hv2 hcnd rfl ⟨?_, hHT⟩ (Nat.le_refl _)
            show po.idx (.ebb p.begin) ≤ po.idx (.ebb ebb)
            omega
          | cons q post' =>
            have hqH := hpostB q (List.mem_cons_self _ _)
            have hqwf := hv.wf q (hdcp ▸ List.mem_append.2
              (Or.inr (List.mem_cons_of_mem _ (List.mem_cons_self _ _))))
            by_cases hgq : po.is_ebb_gap toi q.begin = true
            · have hgl := hpo.gap_lt toi q.begin hgq
              have hqlt : po.cmp (.inst q.iend) (.inst p.iend) = .gt :=
                cmp_eq_gt.2 (by omega)
              rw [extend_err_both hcnd hfind hdcp hlen' hgp hgq hqlt] at hx
              cases hx
              refine extend_snd_nomod po _ ebb toi pre' post'
                (Interval.mk p.begin q.iend) hpo hv2 hcnd rfl ⟨?_, ?_⟩ ?_
              · show po.idx (.ebb p.begin) ≤ po.idx (.ebb ebb)
                omega
              · show po.idx (.ebb ebb) < po.idx (.inst q.iend)
                omega
              · show po.idx (.inst toi) ≤ po.idx (.inst q.iend)
                omega
            · have hgq' := gap_eq_false hgq
              rw [extend_err_prev hcnd hfind hdcp hlen' hgp (fun q' hq' => by
                have hqq : q' = q := by simpa using hq'.symm
                exact hqq ▸ hgq') hplt] at hx
              cases hx
              refine extend_snd_nomod po _ ebb toi pre' (q :: post')
                (Interval.mk p.begin toi) hpo hv2 hcnd rfl ⟨?_, hHT⟩ (Nat.le_refl _)
              show po.idx (.ebb p.begin) ≤ po.idx (.ebb ebb)
              omega
        · have hgp' := gap_eq_false hgp
          cases post with
          | nil =>
            rw [extend_err_insert_concat hcnd hfind hdcp hlen' hgp'
              (fun q hq => by cases hq)] at hx
            cases hx
            exact extend_snd_nomod po _ ebb toi (pre' ++ [p]) [] (Interval.mk ebb toi)
              hpo hv2 hcnd (by simp) ⟨Nat.le_refl _, hHT⟩ (Nat.le_refl _)
          | cons q post' =>
            have hqH := hpostB q (List.mem_cons_self _ _)
            have hqwf := hv.wf q (hdcp ▸ List.mem_append.2
              (Or.inr (List.mem_cons_of_mem _ (List.mem_cons_self _ _))))
            by_cases hgq : po.is_ebb_gap toi q.begin = true
            · have hgl := hpo.gap_lt toi q.begin hgq
              rw [extend_err_next_concat hcnd hfind hdcp hlen' hgp' hgq] at hx
              cases hx
              refine extend_snd_nomod po _ ebb toi (pre' ++ [p]) post'
                (Interval.mk ebb q.iend) hpo hv2 hcnd (by simp)
                ⟨Nat.le_refl _, ?_⟩ ?_
              · show po.idx (.ebb ebb) < po.idx (.inst q.iend)
                omega
              · show po.idx (.inst toi) ≤ po.idx (.inst q.iend)
                omega
            · have hgq' := gap_eq_false hgq
              rw [extend_err_insert_concat hcnd hfind hdcp hlen' hgp'
                (fun q' hq' => by
                  have hqq : q' = q := by simpa using hq'.symm
                  exact hqq ▸ hgq')] at hx
              cases hx
              exact extend_snd_nomod po _ ebb toi (pre' ++ [p]) (q :: post')
                (Interval.mk ebb toi) hpo hv2 hcnd (by simp)
                ⟨Nat.le_refl _, hHT⟩ (Nat.le_refl _)

/-- Witness for C6: repeating a concrete extension changes nothing. -/
theorem C6_witness : Valid poW lrW ∧ InEbb poW 2 2 ∧
    lrW2.extend_in_ebb 2 2 poW = some (false, lrW2) :=
  ⟨lrW_valid, inEbbW 2,
    C6_extend_in_ebb_idempotent poW lrW lrW2 2 2 true poW_valid lrW_valid (inEbbW 2)
      (fun hd => absurd (InEbb.unique poW_valid (inEbbW 0) hd) (by decide)) rfl⟩

end Cretonne